import Mathlib

/-!
# QuantitativeModel.cpp : credence intervals and the named-value table

A shallow embedding of `src/quantitative_model/QuantitativeModel.cpp`.

* The numeric type is a parameter `α` of every definition.  `F64` is a model of `double`
  (IEEE-754 binary64: rounding to nearest even, subnormals, underflow to zero, overflow to
  infinity, NaN, signed zero); the theorems on the values `CI` returns for given arguments are
  stated on it.  The theorems on the formula `CI` evaluates are stated over the real numbers
  (`Real.sqrt`, `Real.log`).
* `QuantitativeModel.h` is not part of the sources.  What the code uses from it (the macro
  `GAUSSIAN_90TH_PERCENTILE`, the default constructor of `Distribution`, the arithmetic operators
  of `Distribution`) is a parameter, collected in `Header`.
* `std::map<string, Distribution>` is a list of entries in strictly increasing key order.
* The global `WARN_ABOUT_MISSING_KEYS` and the stream `cerr` are fields of `World`, passed
  explicitly.
-/

namespace QuantitativeModel

/-! ## Distribution -/

/-- The fields of `Distribution` the source touches: `name` (written by `Table::operator[]`),
`p_m` and `p_s` (read by `print_results`). -/
structure Distribution (α : Type) where
  name : String
  p_m : α
  p_s : α
deriving DecidableEq, Repr

/-- Modelled from the spec: the constructor `Distribution(p_m, p_s)` of the header, "constructed
directly from (location, spread)"; the label of a fresh value is the empty `std::string`. -/
def Distribution.ofParams {α : Type} (p_m p_s : α) : Distribution α :=
  { name := "", p_m := p_m, p_s := p_s }

/-- Modelled from the spec: the macro `GAUSSIAN_90TH_PERCENTILE` of the header, "the Gaussian
90th-percentile z-score", to ten decimals. -/
def GAUSSIAN_90TH_PERCENTILE : ℚ := 12815515655 / 10000000000

/-! ## CI -/

/-- The function `CI(double lo, double hi)`: `sqrt` and `log` are the `<cmath>` functions, `z` is
the value of `GAUSSIAN_90TH_PERCENTILE`. -/
def CI {α : Type} [Mul α] [Div α] [NatCast α] (sqrt log : α → α) (z : α) (lo hi : α) :
    Distribution α :=
  let p_m := sqrt (lo * hi)
  let p_s := sqrt (log (hi / lo) / log ((10 : Nat) : α) / ((2 : Nat) : α) / z)
  Distribution.ofParams p_m p_s

/-- The overload `CI(double singleton)`. -/
def CI_singleton {α : Type} [Mul α] [Div α] [NatCast α] (sqrt log : α → α) (z : α)
    (singleton : α) : Distribution α :=
  CI sqrt log z singleton singleton

/-- How a call of a C++ function ends: it returns a value, or an exception leaves it. -/
inductive Call (β : Type) where
  | returns (value : β)
  | throws (what : String)
deriving DecidableEq, Repr

/-- A call `CI(lo, hi)` as its caller sees it.  The body of `CI` is three initialisations and a
`return`: there is no `throw`, no `exit` and no test of `lo` or `hi`, so the call returns the
value built by `CI`. -/
def CI_call {α : Type} [Mul α] [Div α] [NatCast α] (sqrt log : α → α) (z : α) (lo hi : α) :
    Call (Distribution α) :=
  Call.returns (CI sqrt log z lo hi)

/-! ## double arithmetic (IEEE-754 binary64, round to nearest even) -/

/-- An IEEE-754 binary64 value.  A finite value is a sign and a magnitude counted in units of
`2^-1074`, the smallest positive `double`. -/
inductive F64 where
  | fin (neg : Bool) (k : ℕ)
  | inf (neg : Bool)
  | nan
deriving DecidableEq, Repr

/-- Round-half-even of the quotient `n / d` to a natural number. -/
def roundHalfEven (n d : ℕ) : ℕ :=
  if 2 * (n % d) < d then n / d
  else if d < 2 * (n % d) then n / d + 1
  else if (n / d) % 2 = 0 then n / d else n / d + 1

/-- The spacing, as a power of two of units, of the doubles around a magnitude whose integer part
is `f` units: 53 significant bits, and one unit below `2^53` units. -/
def quantumExp (f : ℕ) : ℕ := Nat.size f - 53

/-- Rounding to nearest, ties to even, of the exact magnitude `n / d` units. -/
def roundUnits (n d : ℕ) : ℕ :=
  roundHalfEven n (d * 2 ^ quantumExp (n / d)) * 2 ^ quantumExp (n / d)

/-- A rounded magnitude as a value: at `2^1024` (that is `2^2098` units) and above it is
infinite. -/
def F64.ofMagnitude (neg : Bool) (k : ℕ) : F64 :=
  if 2 ^ 2098 ≤ k then F64.inf neg else F64.fin neg k

/-- Multiplication of doubles: the exact product of finite values is rounded; the sign is
the exclusive or of the signs; `inf * 0` is NaN. -/
def F64.mul : F64 → F64 → F64
  | F64.nan, _ => F64.nan
  | _, F64.nan => F64.nan
  | F64.inf s, F64.inf t => F64.inf (xor s t)
  | F64.inf s, F64.fin t k => if k = 0 then F64.nan else F64.inf (xor s t)
  | F64.fin s k, F64.inf t => if k = 0 then F64.nan else F64.inf (xor s t)
  | F64.fin s a, F64.fin t b => F64.ofMagnitude (xor s t) (roundUnits (a * b) (2 ^ 1074))

/-- Division of doubles: the exact quotient of finite values is rounded; `x / 0` is infinite for
`x` not zero, and `0 / 0` and `inf / inf` are NaN. -/
def F64.div : F64 → F64 → F64
  | F64.nan, _ => F64.nan
  | _, F64.nan => F64.nan
  | F64.inf _, F64.inf _ => F64.nan
  | F64.inf s, F64.fin t _ => F64.inf (xor s t)
  | F64.fin s _, F64.inf t => F64.fin (xor s t) 0
  | F64.fin s a, F64.fin t b =>
    if b = 0 then (if a = 0 then F64.nan else F64.inf (xor s t))
    else F64.ofMagnitude (xor s t) (roundUnits (a * 2 ^ 1074) b)

/-- The natural number of 53 significant bits nearest to the square root of `m` (ties to
even): `Nat.sqrt m` is cut to its 53 leading bits, and `m` is compared with the square of the
midpoint to the next such number. -/
def sqrtRound (m : ℕ) : ℕ :=
  let g := 2 ^ quantumExp (Nat.sqrt m)
  let lower := Nat.sqrt m / g * g
  let mid := 2 * lower + g
  if 4 * m < mid ^ 2 then lower
  else if mid ^ 2 < 4 * m then lower + g
  else if (Nat.sqrt m / g) % 2 = 0 then lower else lower + g

/-- Correctly rounded square root of the magnitude `k` units, in units: the root of
`k * 2^-1074` is `sqrt (k * 2^1074)` units. -/
def sqrtUnits (k : ℕ) : ℕ :=
  sqrtRound (k * 2 ^ 1074)

/-- The function `sqrt` of `<cmath>` on doubles: correctly rounded, NaN below zero, and
`sqrt(-0)` is `-0`. -/
def F64.sqrt : F64 → F64
  | F64.nan => F64.nan
  | F64.inf s => if s then F64.nan else F64.inf false
  | F64.fin s k => if k = 0 then F64.fin s 0 else if s then F64.nan else F64.fin false (sqrtUnits k)

instance : Mul F64 := ⟨F64.mul⟩
instance : Div F64 := ⟨F64.div⟩
/-- Conversion of an integer literal (`10`, `2`) to `double`. -/
instance : NatCast F64 := ⟨fun n => F64.ofMagnitude false (roundUnits (n * 2 ^ 1074) 1)⟩

/-- The comparison `x < y` of doubles: false when either is NaN, and `-0` is not below `+0`. -/
def F64.lt : F64 → F64 → Bool
  | F64.fin s a, F64.fin t b =>
    match s, t with
    | false, false => decide (a < b)
    | true, true => decide (b < a)
    | true, false => decide (0 < a) || decide (0 < b)
    | false, true => false
  | F64.fin _ _, F64.inf t => !t
  | F64.inf s, F64.fin _ _ => s
  | F64.inf s, F64.inf t => s && !t
  | _, _ => false

/-- The comparison `x <= y` of doubles: false when either is NaN, and `-0 <= +0 <= -0`. -/
def F64.le : F64 → F64 → Bool
  | F64.fin s a, F64.fin t b =>
    match s, t with
    | false, false => decide (a ≤ b)
    | true, true => decide (b ≤ a)
    | true, false => true
    | false, true => decide (a = 0) && decide (b = 0)
  | F64.fin _ _, F64.inf t => !t
  | F64.inf s, F64.fin _ _ => s
  | F64.inf s, F64.inf t => s || !t
  | _, _ => false

/-- The magnitudes of finite doubles: at most 53 significant bits (a multiple of the spacing at
its size) and below `2^1024`. -/
def F64.representable (k : ℕ) : Prop :=
  k % 2 ^ quantumExp k = 0 ∧ k < 2 ^ 2098

/-! ## std::map<string, Distribution> -/

/-- Entries of a `std::map<string, Distribution>`, in iteration order. -/
abbrev StdMap (α : Type) := List (String × Distribution α)

/-- The invariant of `std::map`: keys strictly increasing (hence unique). -/
def StdMap.WF {α : Type} (m : StdMap α) : Prop :=
  m.Pairwise (fun e₁ e₂ => e₁.1 < e₂.1)

/-- The member `std::map::find`, as the value found (`none` for `end()`). -/
def StdMap.find {α : Type} : StdMap α → String → Option (Distribution α)
  | [], _ => none
  | (k, v) :: rest, b =>
    if b < k then none
    else if b = k then some v
    else StdMap.find rest b

/-- The insertion half of `std::map::operator[]`: a missing key gets the value `dflt` at its
place in the order, a present key leaves the map as it is. -/
def StdMap.insertDefault {α : Type} (dflt : Distribution α) : StdMap α → String → StdMap α
  | [], b => [(b, dflt)]
  | (k, v) :: rest, b =>
    if b < k then (b, dflt) :: (k, v) :: rest
    else if b = k then (k, v) :: rest
    else (k, v) :: StdMap.insertDefault dflt rest b

/-- An update through the reference `std::map::operator[]` returned for key `b`. -/
def StdMap.update {α : Type} (f : Distribution α → Distribution α) :
    StdMap α → String → StdMap α
  | [], _ => []
  | (k, v) :: rest, b =>
    if b < k then (k, v) :: rest
    else if b = k then (k, f v) :: rest
    else (k, v) :: StdMap.update f rest b

/-- Number of entries stored under key `b`. -/
def StdMap.count {α : Type} (m : StdMap α) (b : String) : Nat :=
  m.countP (fun e => e.1 = b)

/-! ## Table -/

/-- The process state outside the table: the global flag and what was written to `cerr`.
`accesses` is a history variable: each call of `Table::operator[]` appends the key and the value
the flag had during the call. -/
structure World where
  WARN_ABOUT_MISSING_KEYS : Bool
  cerr : List String
  accesses : List (String × Bool)
deriving DecidableEq, Repr

/-- The class `Table`, with its private member `table`. -/
structure Table (α : Type) where
  table : StdMap α
deriving DecidableEq, Repr

/-- The line `Table::operator[]` writes to `cerr`. -/
def warning (b : String) : String :=
  "Warning: \"" ++ b ++ "\" is not in the table."

/-- The operator `Table::operator[]`.  Returns the new world, the new table and the value of the
entry the returned reference points to. -/
def Table.index {α : Type} (dflt : Distribution α) (w : World) (t : Table α) (b : String) :
    World × Table α × Distribution α :=
  let w₁ : World :=
    if w.WARN_ABOUT_MISSING_KEYS && (StdMap.find t.table b).isNone then
      { w with cerr := w.cerr ++ [warning b] }
    else w
  -- table[b].name = b;
  let m₁ := StdMap.update (fun d => { d with name := b }) (StdMap.insertDefault dflt t.table b) b
  -- return table[b];
  let m₂ := StdMap.insertDefault dflt m₁ b
  let w₂ : World := { w₁ with accesses := w₁.accesses ++ [(b, w.WARN_ABOUT_MISSING_KEYS)] }
  match StdMap.find m₂ b with
  | some d => (w₂, { table := m₂ }, d)
  | none => (w₂, { table := m₂ }, dflt)

/-- The value `Table::operator[]` leaves under `b`: what was stored, or the default, relabelled. -/
def relabelled {α : Type} (dflt : Distribution α) (m : StdMap α) (b : String) : Distribution α :=
  { (StdMap.find m b).getD dflt with name := b }

/-- The statement `table[b] = v;` for an already evaluated right-hand side `v`: `operator[]`
yields the reference, then the implicit copy assignment of `Distribution` stores every member of
`v` (its `name` too) through it. -/
def Table.assign {α : Type} (dflt : Distribution α) (w : World) (t : Table α) (b : String)
    (v : Distribution α) : World × Table α :=
  let r := Table.index dflt w t b
  (r.1, { table := StdMap.update (fun _ => v) r.2.1.table b })

/-! ## What the code takes from QuantitativeModel.h and the standard library -/

/-- The declarations of `QuantitativeModel.h`, `<cmath>` and `<string>` used by the source.
`default_Distribution` is the value of `Distribution()`; `mul`, `add` and `sub` are the operators
`*`, `+` and `-` of `Distribution`; `stof` is `std::stof`, `none` where it throws. -/
structure Header (α : Type) where
  GAUSSIAN_90TH_PERCENTILE : α
  sqrt : α → α
  log : α → α
  stof : String → Option α
  default_Distribution : Distribution α
  mul : Distribution α → Distribution α → Distribution α
  add : Distribution α → Distribution α → Distribution α
  sub : Distribution α → Distribution α → Distribution α

/-! ## The formula blocks -/

/-- Right-hand side of a formula statement: reads `table["..."]` joined by `*`, `+`, `-`. -/
inductive Expr where
  | table (name : String)
  | mul (a b : Expr)
  | add (a b : Expr)
  | sub (a b : Expr)
deriving DecidableEq, Repr

instance : Mul Expr := ⟨Expr.mul⟩
instance : Add Expr := ⟨Expr.add⟩
instance : Sub Expr := ⟨Expr.sub⟩

/-- A statement `table[lhs] = rhs;`. -/
structure Stmt where
  lhs : String
  rhs : Expr
deriving DecidableEq, Repr

/-- The names an expression reads, left to right. -/
def Expr.reads : Expr → List String
  | Expr.table name => [name]
  | Expr.mul a b => a.reads ++ b.reads
  | Expr.add a b => a.reads ++ b.reads
  | Expr.sub a b => a.reads ++ b.reads

/-- Evaluation of a right-hand side: every `table[name]` is a call of `Table::operator[]`.  C++
leaves the order of the two operands of an operator open; they are taken left to right. -/
def Expr.eval {α : Type} (H : Header α) (w : World) (t : Table α) :
    Expr → World × Table α × Distribution α
  | Expr.table name => Table.index H.default_Distribution w t name
  | Expr.mul a b =>
    let ra := Expr.eval H w t a
    let rb := Expr.eval H ra.1 ra.2.1 b
    (rb.1, rb.2.1, H.mul ra.2.2 rb.2.2)
  | Expr.add a b =>
    let ra := Expr.eval H w t a
    let rb := Expr.eval H ra.1 ra.2.1 b
    (rb.1, rb.2.1, H.add ra.2.2 rb.2.2)
  | Expr.sub a b =>
    let ra := Expr.eval H w t a
    let rb := Expr.eval H ra.1 ra.2.1 b
    (rb.1, rb.2.1, H.sub ra.2.2 rb.2.2)

/-- One statement `table[lhs] = rhs;`: the right-hand side is evaluated, then `table[lhs]`, then
the value is stored through the reference. -/
def Stmt.exec {α : Type} (H : Header α) (w : World) (t : Table α) (s : Stmt) :
    World × Table α :=
  let r := Expr.eval H w t s.rhs
  Table.assign H.default_Distribution r.1 r.2.1 s.lhs r.2.2

/-- A block of statements, in order. -/
def execBlock {α : Type} (H : Header α) : List Stmt → World → Table α → World × Table α
  | [], w, t => (w, t)
  | s :: rest, w, t =>
    let r := Stmt.exec H w t s
    execBlock H rest r.1 r.2

open Expr in
/-- The statements of `set_globals`, in program order. -/
def set_globals_body : List Stmt :=
  [ ⟨"utility per wealthy human",
      table "wealthy human well-being"⟩,
    ⟨"utility per developing-world human",
      table "developing-world human well-being"⟩,
    ⟨"utility per factory-farmed animal",
      table "factory-farmed animal wellbeing"
      * table "factory-farmed animal sentience adjustment"⟩,
    ⟨"utility per cage removed",
      table "cage-free well-being improvement"
      * table "factory-farmed animal sentience adjustment"⟩,
    ⟨"utility per wild vertebrate",
      table "wild vertebrate well-being"
      * table "wild vertebrate sentience adjustment"⟩,
    ⟨"utility per insect",
      table "insect well-being"
      * table "insect sentience adjustment"⟩,
    ⟨"utility per hedonium",
      table "hedonium well-being"
      * table "hedonium brains per human brain"⟩,
    ⟨"utility per em",
      table "em well-being"
      * table "ems per human brain"⟩,
    ⟨"utility per paperclip",
      table "paperclip well-being"
      * table "paperclips per human brain"⟩,
    ⟨"utility per dolorium",
      table "dolorium well-being"
      * table "dolorium brains per human brain"⟩,
    ⟨"computer brains in far future",
      table "accessible stars by computers"
      * table "years of future"
      * table "usable wattage per star"
      * table "brains per watt"⟩,
    ⟨"biology star-years in far future",
      table "accessible stars by biology"
      * table "years of future"⟩ ]

open Expr in
/-- The statements of `set_EV_far_future`, in program order. -/
def set_EV_far_future_body : List Stmt :=
  [ ⟨"P(humans exist)",
      table "P(fill universe with biology)"⟩,
    ⟨"P(hedonium exists)",
      table "P(fill universe with computers)"
      * table "P(hedonium)"⟩,
    ⟨"P(ems exist)",
      table "P(fill universe with computers)"
      * table "P(ems)"⟩,
    ⟨"human weighted utility",
      table "P(humans exist)"
      * table "utility per wealthy human"
      * table "humans per star"
      * table "biology star-years in far future"⟩,
    ⟨"hedonium weighted utility",
      table "P(hedonium exists)"
      * table "utility per hedonium"
      * table "computer brains in far future"⟩,
    ⟨"em weighted utility",
      table "P(ems exist)"
      * table "utility per em"
      * table "computer brains in far future"⟩,
    ⟨"pos EV of far future",
      table "human weighted utility"
      + table "hedonium weighted utility"
      + table "em weighted utility"⟩,
    ⟨"P(factory farming exists)",
      table "P(fill universe with biology)"
      * table "P(society doesn't care about animals)"
      * table "P(we have factory farming)"⟩,
    ⟨"P(wild vertebrates exist)",
      table "P(fill universe with biology)"
      * table "P(society doesn't care about animals)"
      * table "P(we spread WAS)"⟩,
    ⟨"P(insects exist)",
      table "P(wild vertebrates exist)"⟩,
    ⟨"P(simulations exist)",
      table "P(fill universe with biology)"
      * table "P(society doesn't care about animals)"
      * table "P(we make suffering simulations)"⟩,
    ⟨"P(paperclips exist)",
      table "P(fill universe with computers)"
      * table "P(paperclip)"⟩,
    ⟨"P(dolorium exists)",
      table "P(fill universe with computers)"
      * table "P(dolorium)"⟩,
    ⟨"factory farming weighted utility",
      table "P(factory farming exists)"
      * table "utility per factory-farmed animal"
      * table "biology star-years in far future"
      * table "factory farmed animals per star"⟩,
    ⟨"wild vertebrate weighted utility",
      table "P(wild vertebrates exist)"
      * table "utility per wild vertebrate"
      * table "biology star-years in far future"
      * table "wild vertebrates per star"⟩,
    ⟨"insect weighted utility",
      table "P(insects exist)"
      * table "utility per insect"
      * table "biology star-years in far future"
      * table "insects per star"⟩,
    ⟨"simulation weighted utility",
      table "P(simulations exist)"
      * table "utility per insect"
      * table "simulations per insect"
      * table "biology star-years in far future"
      * table "insects per star"⟩,
    ⟨"paperclip weighted utility",
      table "P(paperclips exist)"
      * table "utility per paperclip"
      * table "computer brains in far future"⟩,
    ⟨"dolorium weighted utility",
      table "P(dolorium exists)"
      * table "utility per dolorium"
      * table "computer brains in far future"⟩,
    ⟨"neg EV of far future",
      table "factory farming weighted utility"
      + table "wild vertebrate weighted utility"
      + table "insect weighted utility"
      + table "simulation weighted utility"
      + table "paperclip weighted utility"
      + table "dolorium weighted utility"⟩,
    ⟨"EV of far future",
      table "pos EV of far future"
      - table "neg EV of far future"⟩ ]

/-- The function `set_globals(Table& table)`. -/
def set_globals {α : Type} (H : Header α) (w : World) (t : Table α) : World × Table α :=
  execBlock H set_globals_body w t

/-- The function `set_EV_far_future(Table& table)`. -/
def set_EV_far_future {α : Type} (H : Header α) (w : World) (t : Table α) : World × Table α :=
  execBlock H set_EV_far_future_body w t

/-- The statements `read_input` runs after loading: `set_globals`, then `set_EV_far_future`. -/
def formula_sequence : List Stmt :=
  set_globals_body ++ set_EV_far_future_body

/-- Left-hand sides of a list of statements. -/
def assigned (p : List Stmt) : List String :=
  p.map Stmt.lhs

/-- Checks one statement against the statements before it (`before`) and the whole sequence
(`all`): a name it reads is assigned by an earlier statement or by none. -/
def Stmt.readsInOrder (all before : List Stmt) (s : Stmt) : Bool :=
  s.rhs.reads.all (fun r => decide (r ∈ assigned before) || !decide (r ∈ assigned all))

/-- Walks a sequence, checking every statement with `Stmt.readsInOrder`. -/
def orderedFrom (all : List Stmt) : List Stmt → List Stmt → Bool
  | _, [] => true
  | before, s :: rest => s.readsInOrder all before && orderedFrom all (before ++ [s]) rest

/-! ## read_input -/

/-- The three fields the `getline` calls of one loop iteration leave in `key`, `low_CI` and
`high_CI`. -/
structure Record where
  key : String
  low_CI : String
  high_CI : String
deriving DecidableEq, Repr

/-- How `read_input` ends: it returns the table, it calls `exit`, or an exception of `stof`
leaves it.  Each case carries the world at that point. -/
inductive Outcome (α : Type) where
  | returned (w : World) (t : Table α)
  | exited (w : World) (code : Nat)
  | threw (w : World)

/-- The loop `while (file.good())` of `read_input` over the records of the file: a record with
an empty key is skipped, any other is converted by `stof` and assigned.  `Except.error` carries
the world when `stof` throws. -/
def read_input_loop {α : Type} [Mul α] [Div α] [NatCast α] (H : Header α) :
    List Record → World → Table α → Except World (World × Table α)
  | [], w, t => Except.ok (w, t)
  | r :: rest, w, t =>
    if r.key.length ≠ 0 then
      match H.stof r.low_CI, H.stof r.high_CI with
      | some lo, some hi =>
        let s := Table.assign H.default_Distribution w t r.key
          (CI H.sqrt H.log H.GAUSSIAN_90TH_PERCENTILE lo hi)
        read_input_loop H rest s.1 s.2
      | _, _ => Except.error w
    else read_input_loop H rest w t

/-- The function `read_input(string filename)`.  `file` is `none` when the stream is not good
after opening, else the records the loop reads. -/
def read_input {α : Type} [Mul α] [Div α] [NatCast α] (H : Header α) (w : World)
    (filename : String) (file : Option (List Record)) : Outcome α :=
  let WARN_ABOUT_MISSING_KEYS_SAVED := w.WARN_ABOUT_MISSING_KEYS
  let w₀ : World := { w with WARN_ABOUT_MISSING_KEYS := false }
  match file with
  | none =>
    Outcome.exited
      { w₀ with cerr := w₀.cerr ++
          ["I wasn't able to open the input file (" ++ filename ++ "), so I'm exiting."] } 1
  | some records =>
    match read_input_loop H records w₀ { table := [] } with
    | Except.error w₁ => Outcome.threw w₁
    | Except.ok s₁ =>
      let s₂ := set_globals H s₁.1 s₁.2
      let s₃ := set_EV_far_future H s₂.1 s₂.2
      Outcome.returned { s₃.1 with WARN_ABOUT_MISSING_KEYS := WARN_ABOUT_MISSING_KEYS_SAVED } s₃.2

/-- The world an outcome of `read_input` carries. -/
def Outcome.world {α : Type} : Outcome α → World
  | Outcome.returned w _ => w
  | Outcome.exited w _ => w
  | Outcome.threw w => w

/-- Whether `stof` accepts both numbers of every record the loop converts (those with a
non-empty key). -/
def convertible {α : Type} (H : Header α) (records : List Record) : Bool :=
  records.all (fun r =>
    decide (r.key.length = 0) || ((H.stof r.low_CI).isSome && (H.stof r.high_CI).isSome))

/-- The world `w'` continues `w`: the flag is the same, and every call of `Table::operator[]`
made since `w` saw the flag at the value it has in `w`. -/
def World.Continues (w w' : World) : Prop :=
  w'.WARN_ABOUT_MISSING_KEYS = w.WARN_ABOUT_MISSING_KEYS ∧
  ∃ added : List (String × Bool), w'.accesses = w.accesses ++ added ∧
    ∀ a ∈ added, a.2 = w.WARN_ABOUT_MISSING_KEYS

/-! ## Lemmas on the map model -/

section StdMapLemmas

variable {α : Type}

theorem StdMap.find_insertDefault_self (dflt : Distribution α) (m : StdMap α) (b : String) :
    StdMap.find (StdMap.insertDefault dflt m b) b = some ((StdMap.find m b).getD dflt) := by
  induction m with
  | nil => simp [StdMap.insertDefault, StdMap.find]
  | cons e rest ih =>
    obtain ⟨k, v⟩ := e
    by_cases h₁ : b < k
    · simp [StdMap.insertDefault, StdMap.find, h₁]
    · by_cases h₂ : b = k
      · simp [StdMap.insertDefault, StdMap.find, h₂]
      · simp [StdMap.insertDefault, StdMap.find, h₁, h₂, ih]

theorem StdMap.find_insertDefault_ne (dflt : Distribution α) (m : StdMap α) {b c : String}
    (hne : c ≠ b) :
    StdMap.find (StdMap.insertDefault dflt m b) c = StdMap.find m c := by
  induction m with
  | nil =>
    by_cases h : c < b
    · simp [StdMap.insertDefault, StdMap.find, h]
    · simp [StdMap.insertDefault, StdMap.find, h, hne]
  | cons e rest ih =>
    obtain ⟨k, v⟩ := e
    by_cases h₁ : b < k
    · by_cases h₃ : c < b
      · have h₄ : c < k := lt_trans h₃ h₁
        simp [StdMap.insertDefault, StdMap.find, h₁, h₃, h₄]
      · simp [StdMap.insertDefault, StdMap.find, h₁, h₃, hne]
    · by_cases h₂ : b = k
      · simp [StdMap.insertDefault, StdMap.find, h₂]
      · simp [StdMap.insertDefault, StdMap.find, h₁, h₂, ih]

theorem StdMap.find_update_self (f : Distribution α → Distribution α) (m : StdMap α)
    (b : String) :
    StdMap.find (StdMap.update f m b) b = (StdMap.find m b).map f := by
  induction m with
  | nil => simp [StdMap.update, StdMap.find]
  | cons e rest ih =>
    obtain ⟨k, v⟩ := e
    by_cases h₁ : b < k
    · simp [StdMap.update, StdMap.find, h₁]
    · by_cases h₂ : b = k
      · simp [StdMap.update, StdMap.find, h₂]
      · simp [StdMap.update, StdMap.find, h₁, h₂, ih]

theorem StdMap.find_update_ne (f : Distribution α → Distribution α) (m : StdMap α)
    {b c : String} (hne : c ≠ b) :
    StdMap.find (StdMap.update f m b) c = StdMap.find m c := by
  induction m with
  | nil => simp [StdMap.update, StdMap.find]
  | cons e rest ih =>
    obtain ⟨k, v⟩ := e
    by_cases h₁ : b < k
    · simp [StdMap.update, StdMap.find, h₁]
    · by_cases h₂ : b = k
      · subst h₂
        simp [StdMap.update, StdMap.find, hne]
      · simp [StdMap.update, StdMap.find, h₁, h₂, ih]

theorem StdMap.insertDefault_of_find (dflt : Distribution α) (m : StdMap α) (b : String)
    (v : Distribution α) (h : StdMap.find m b = some v) :
    StdMap.insertDefault dflt m b = m := by
  induction m with
  | nil => simp [StdMap.find] at h
  | cons e rest ih =>
    obtain ⟨k, v'⟩ := e
    by_cases h₁ : b < k
    · simp [StdMap.find, h₁] at h
    · by_cases h₂ : b = k
      · simp [StdMap.insertDefault, h₂]
      · simp [StdMap.find, h₁, h₂] at h
        simp [StdMap.insertDefault, h₁, h₂, ih h]

theorem StdMap.update_of_find (f : Distribution α → Distribution α) (m : StdMap α)
    (b : String) (v : Distribution α) (h : StdMap.find m b = some v) (hf : f v = v) :
    StdMap.update f m b = m := by
  induction m with
  | nil => simp [StdMap.find] at h
  | cons e rest ih =>
    obtain ⟨k, v'⟩ := e
    by_cases h₁ : b < k
    · simp [StdMap.find, h₁] at h
    · by_cases h₂ : b = k
      · simp [StdMap.find, h₂] at h
        simp [StdMap.update, h₂, h, hf]
      · simp [StdMap.find, h₁, h₂] at h
        simp [StdMap.update, h₁, h₂, ih h]

theorem StdMap.keys_update (f : Distribution α → Distribution α) (m : StdMap α) (b : String) :
    (StdMap.update f m b).map Prod.fst = m.map Prod.fst := by
  induction m with
  | nil => simp [StdMap.update]
  | cons e rest ih =>
    obtain ⟨k, v⟩ := e
    by_cases h₁ : b < k
    · simp [StdMap.update, h₁]
    · by_cases h₂ : b = k
      · simp [StdMap.update, h₂]
      · simp [StdMap.update, h₁, h₂, ih]

theorem StdMap.wf_iff_keys (m : StdMap α) :
    StdMap.WF m ↔ (m.map Prod.fst).Pairwise (fun a b => a < b) := by
  unfold StdMap.WF
  rw [List.pairwise_map]

theorem StdMap.count_eq_keys (m : StdMap α) (b : String) :
    StdMap.count m b = (m.map Prod.fst).count b := by
  unfold StdMap.count
  induction m with
  | nil => simp
  | cons e rest ih =>
    obtain ⟨k, v⟩ := e
    by_cases h : k = b
    · simp [List.countP_cons, List.count_cons, h, ih]
    · simp [List.countP_cons, List.count_cons, h, ih]

theorem StdMap.WF_update (f : Distribution α → Distribution α) (m : StdMap α) (b : String)
    (h : StdMap.WF m) : StdMap.WF (StdMap.update f m b) := by
  rw [StdMap.wf_iff_keys] at h ⊢
  rw [StdMap.keys_update]
  exact h

theorem StdMap.count_update (f : Distribution α → Distribution α) (m : StdMap α)
    (b c : String) : StdMap.count (StdMap.update f m b) c = StdMap.count m c := by
  rw [StdMap.count_eq_keys, StdMap.count_eq_keys, StdMap.keys_update]

theorem StdMap.length_update (f : Distribution α → Distribution α) (m : StdMap α)
    (b : String) : (StdMap.update f m b).length = m.length := by
  have h := congrArg List.length (StdMap.keys_update f m b)
  simpa using h

theorem StdMap.mem_insertDefault (dflt : Distribution α) (m : StdMap α) (b : String)
    (e : String × Distribution α) (h : e ∈ StdMap.insertDefault dflt m b) :
    e = (b, dflt) ∨ e ∈ m := by
  induction m with
  | nil => simpa [StdMap.insertDefault] using h
  | cons e' rest ih =>
    obtain ⟨k, v⟩ := e'
    by_cases h₁ : b < k
    · simpa [StdMap.insertDefault, h₁] using h
    · by_cases h₂ : b = k
      · right
        simpa [StdMap.insertDefault, h₂] using h
      · simp only [StdMap.insertDefault, h₁, h₂, if_false, List.mem_cons] at h
        rcases h with h | h
        · right; simp [h]
        · rcases ih h with h' | h'
          · left; exact h'
          · right; simp [h']

theorem StdMap.key_mem_insertDefault (dflt : Distribution α) (m : StdMap α) (b : String) :
    b ∈ (StdMap.insertDefault dflt m b).map Prod.fst := by
  induction m with
  | nil => simp [StdMap.insertDefault]
  | cons e rest ih =>
    obtain ⟨k, v⟩ := e
    by_cases h₁ : b < k
    · simp [StdMap.insertDefault, h₁]
    · by_cases h₂ : b = k
      · simp [StdMap.insertDefault, h₂]
      · simp only [StdMap.insertDefault, h₁, h₂, if_false, List.map_cons, List.mem_cons]
        right; exact ih

theorem StdMap.WF_insertDefault (dflt : Distribution α) (m : StdMap α) (b : String)
    (h : StdMap.WF m) : StdMap.WF (StdMap.insertDefault dflt m b) := by
  induction m with
  | nil => simp [StdMap.insertDefault, StdMap.WF]
  | cons e rest ih =>
    obtain ⟨k, v⟩ := e
    have hk : ∀ e ∈ rest, k < e.1 := (List.pairwise_cons.mp h).1
    have hrest : StdMap.WF rest := (List.pairwise_cons.mp h).2
    by_cases h₁ : b < k
    · simp only [StdMap.insertDefault, h₁, if_true]
      refine List.pairwise_cons.mpr ⟨?_, h⟩
      intro e he
      rcases List.mem_cons.mp he with he | he
      · simpa [he] using h₁
      · exact lt_trans h₁ (hk e he)
    · by_cases h₂ : b = k
      · simpa [StdMap.insertDefault, h₂] using h
      · simp only [StdMap.insertDefault, h₁, h₂, if_false]
        refine List.pairwise_cons.mpr ⟨?_, ih hrest⟩
        intro e he
        rcases StdMap.mem_insertDefault dflt rest b e he with he | he
        · have : k < b := lt_of_le_of_ne (not_lt.mp h₁) (fun hkb => h₂ hkb.symm)
          simpa [he] using this
        · exact hk e he

theorem StdMap.count_le_one (m : StdMap α) (b : String) (h : StdMap.WF m) :
    StdMap.count m b ≤ 1 := by
  rw [StdMap.count_eq_keys]
  rw [StdMap.wf_iff_keys] at h
  have hnd : (m.map Prod.fst).Nodup := List.Pairwise.imp (fun hab => ne_of_lt hab) h
  exact List.nodup_iff_count_le_one.mp hnd b

theorem StdMap.count_insertDefault_self (dflt : Distribution α) (m : StdMap α) (b : String)
    (h : StdMap.WF m) : StdMap.count (StdMap.insertDefault dflt m b) b = 1 := by
  have hle := StdMap.count_le_one _ b (StdMap.WF_insertDefault dflt m b h)
  have hpos : 0 < StdMap.count (StdMap.insertDefault dflt m b) b := by
    rw [StdMap.count_eq_keys]
    exact List.count_pos_iff.mpr (StdMap.key_mem_insertDefault dflt m b)
  omega

theorem StdMap.find_eq_none_iff (m : StdMap α) (b : String) (h : StdMap.WF m) :
    StdMap.find m b = none ↔ StdMap.count m b = 0 := by
  induction m with
  | nil => simp [StdMap.find, StdMap.count]
  | cons e rest ih =>
    obtain ⟨k, v⟩ := e
    have hk : ∀ e ∈ rest, k < e.1 := (List.pairwise_cons.mp h).1
    have hrest : StdMap.WF rest := (List.pairwise_cons.mp h).2
    by_cases h₁ : b < k
    · have hkb : ¬ k = b := fun hkb => (lt_irrefl b) (hkb ▸ h₁)
      have hr : StdMap.count rest b = 0 := by
        unfold StdMap.count
        rw [List.countP_eq_zero]
        intro e he
        have : b < e.1 := lt_trans h₁ (hk e he)
        simpa using (ne_of_lt this).symm
      unfold StdMap.count at hr ⊢
      simp [StdMap.find, h₁, List.countP_cons, hkb, hr]
    · by_cases h₂ : b = k
      · unfold StdMap.count
        simp [StdMap.find, h₂, List.countP_cons]
      · have hkb : ¬ k = b := fun hkb => h₂ hkb.symm
        have := ih hrest
        unfold StdMap.count at this ⊢
        simp [StdMap.find, h₁, h₂, List.countP_cons, hkb, this]

theorem StdMap.length_insertDefault (dflt : Distribution α) (m : StdMap α) (b : String)
    (h : StdMap.find m b = none) :
    (StdMap.insertDefault dflt m b).length = m.length + 1 := by
  induction m with
  | nil => simp [StdMap.insertDefault]
  | cons e rest ih =>
    obtain ⟨k, v⟩ := e
    by_cases h₁ : b < k
    · simp [StdMap.insertDefault, h₁]
    · by_cases h₂ : b = k
      · simp [StdMap.find, h₂] at h
      · simp [StdMap.find, h₁, h₂] at h
        simp [StdMap.insertDefault, h₁, h₂, ih h]

/-! ## Lemmas on `Table::operator[]` -/

theorem Table.index_find_aux (dflt : Distribution α) (m : StdMap α) (b : String) :
    StdMap.find
      (StdMap.update (fun d => { d with name := b }) (StdMap.insertDefault dflt m b) b) b
      = some (relabelled dflt m b) := by
  rw [StdMap.find_update_self, StdMap.find_insertDefault_self]
  rfl

theorem Table.index_table (dflt : Distribution α) (w : World) (t : Table α) (b : String) :
    (Table.index dflt w t b).2.1.table
      = StdMap.update (fun d => { d with name := b }) (StdMap.insertDefault dflt t.table b) b := by
  have h := Table.index_find_aux dflt t.table b
  have h' := StdMap.insertDefault_of_find dflt _ b _ h
  simp only [Table.index, h', h]

theorem Table.index_value (dflt : Distribution α) (w : World) (t : Table α) (b : String) :
    (Table.index dflt w t b).2.2 = relabelled dflt t.table b := by
  have h := Table.index_find_aux dflt t.table b
  have h' := StdMap.insertDefault_of_find dflt _ b _ h
  simp only [Table.index, h', h]

theorem Table.index_flag (dflt : Distribution α) (w : World) (t : Table α) (b : String) :
    (Table.index dflt w t b).1.WARN_ABOUT_MISSING_KEYS = w.WARN_ABOUT_MISSING_KEYS := by
  have h := Table.index_find_aux dflt t.table b
  have h' := StdMap.insertDefault_of_find dflt _ b _ h
  simp only [Table.index, h', h]
  split <;> rfl

theorem Table.index_accesses (dflt : Distribution α) (w : World) (t : Table α) (b : String) :
    (Table.index dflt w t b).1.accesses = w.accesses ++ [(b, w.WARN_ABOUT_MISSING_KEYS)] := by
  have h := Table.index_find_aux dflt t.table b
  have h' := StdMap.insertDefault_of_find dflt _ b _ h
  simp only [Table.index, h', h]
  split <;> rfl

theorem Table.index_cerr (dflt : Distribution α) (w : World) (t : Table α) (b : String) :
    (Table.index dflt w t b).1.cerr
      = if w.WARN_ABOUT_MISSING_KEYS && (StdMap.find t.table b).isNone
        then w.cerr ++ [warning b] else w.cerr := by
  have h := Table.index_find_aux dflt t.table b
  have h' := StdMap.insertDefault_of_find dflt _ b _ h
  simp only [Table.index, h', h]
  split <;> rfl

theorem StdMap.insertDefault_perm (dflt : Distribution α) (m : StdMap α) (b : String)
    (h : StdMap.find m b = none) :
    (StdMap.insertDefault dflt m b).Perm ((b, dflt) :: m) := by
  induction m with
  | nil => simp [StdMap.insertDefault]
  | cons e rest ih =>
    obtain ⟨k, v⟩ := e
    by_cases h₁ : b < k
    · simp [StdMap.insertDefault, h₁]
    · by_cases h₂ : b = k
      · simp [StdMap.find, h₂] at h
      · simp [StdMap.find, h₁, h₂] at h
        simp only [StdMap.insertDefault, h₁, h₂, if_false]
        exact ((ih h).cons (k, v)).trans (List.Perm.swap _ _ _)

theorem StdMap.update_insertDefault (f : Distribution α → Distribution α)
    (dflt : Distribution α) (m : StdMap α) (b : String) (h : StdMap.find m b = none) :
    StdMap.update f (StdMap.insertDefault dflt m b) b = StdMap.insertDefault (f dflt) m b := by
  induction m with
  | nil => simp [StdMap.insertDefault, StdMap.update]
  | cons e rest ih =>
    obtain ⟨k, v⟩ := e
    by_cases h₁ : b < k
    · simp [StdMap.insertDefault, StdMap.update, h₁]
    · by_cases h₂ : b = k
      · simp [StdMap.find, h₂] at h
      · simp [StdMap.find, h₁, h₂] at h
        simp [StdMap.insertDefault, StdMap.update, h₁, h₂, ih h]

theorem Table.index_WF (dflt : Distribution α) (w : World) (t : Table α) (b : String)
    (h : StdMap.WF t.table) : StdMap.WF (Table.index dflt w t b).2.1.table := by
  rw [Table.index_table]
  exact StdMap.WF_update _ _ _ (StdMap.WF_insertDefault dflt _ b h)

theorem Table.index_count_self (dflt : Distribution α) (w : World) (t : Table α) (b : String)
    (h : StdMap.WF t.table) : StdMap.count (Table.index dflt w t b).2.1.table b = 1 := by
  rw [Table.index_table, StdMap.count_update]
  exact StdMap.count_insertDefault_self dflt _ b h

theorem Table.index_find_self (dflt : Distribution α) (w : World) (t : Table α) (b : String) :
    StdMap.find (Table.index dflt w t b).2.1.table b = some (relabelled dflt t.table b) := by
  rw [Table.index_table]
  exact Table.index_find_aux dflt t.table b

theorem Table.index_find_ne (dflt : Distribution α) (w : World) (t : Table α) {b c : String}
    (hne : c ≠ b) :
    StdMap.find (Table.index dflt w t b).2.1.table c = StdMap.find t.table c := by
  rw [Table.index_table, StdMap.find_update_ne _ _ hne, StdMap.find_insertDefault_ne _ _ hne]

theorem Table.index_again (dflt : Distribution α) (w w' : World) (t : Table α) (b : String) :
    (Table.index dflt w' (Table.index dflt w t b).2.1 b).2
      = ((Table.index dflt w t b).2.1, (Table.index dflt w t b).2.2) := by
  have hf := Table.index_find_self dflt w t b
  have hval : (Table.index dflt w' (Table.index dflt w t b).2.1 b).2.2
      = (Table.index dflt w t b).2.2 := by
    rw [Table.index_value, Table.index_value]
    simp [relabelled, hf]
  have htab : (Table.index dflt w' (Table.index dflt w t b).2.1 b).2.1
      = (Table.index dflt w t b).2.1 := by
    have h1 : (Table.index dflt w' (Table.index dflt w t b).2.1 b).2.1.table
        = (Table.index dflt w t b).2.1.table := by
      rw [Table.index_table dflt w']
      rw [StdMap.insertDefault_of_find dflt _ b _ hf]
      exact StdMap.update_of_find _ _ b _ hf (by simp [relabelled])
    cases hx : (Table.index dflt w' (Table.index dflt w t b).2.1 b).2.1 with
    | mk tab =>
      cases hy : (Table.index dflt w t b).2.1 with
      | mk tab' =>
        rw [hx, hy] at h1
        simp only at h1
        rw [h1]
  exact Prod.ext htab hval

theorem Table.assign_table (dflt : Distribution α) (w : World) (t : Table α) (b : String)
    (v : Distribution α) :
    (Table.assign dflt w t b v).2.table
      = StdMap.update (fun _ => v) (Table.index dflt w t b).2.1.table b := rfl

theorem Table.assign_world (dflt : Distribution α) (w : World) (t : Table α) (b : String)
    (v : Distribution α) :
    (Table.assign dflt w t b v).1 = (Table.index dflt w t b).1 := rfl

theorem Table.assign_find_self (dflt : Distribution α) (w : World) (t : Table α) (b : String)
    (v : Distribution α) :
    StdMap.find (Table.assign dflt w t b v).2.table b = some v := by
  rw [Table.assign_table, StdMap.find_update_self, Table.index_find_self]
  rfl

theorem Table.assign_find_ne (dflt : Distribution α) (w : World) (t : Table α) {b c : String}
    (v : Distribution α) (hne : c ≠ b) :
    StdMap.find (Table.assign dflt w t b v).2.table c = StdMap.find t.table c := by
  rw [Table.assign_table, StdMap.find_update_ne _ _ hne, Table.index_find_ne _ _ _ hne]

theorem Table.assign_WF (dflt : Distribution α) (w : World) (t : Table α) (b : String)
    (v : Distribution α) (h : StdMap.WF t.table) :
    StdMap.WF (Table.assign dflt w t b v).2.table := by
  rw [Table.assign_table]
  exact StdMap.WF_update _ _ _ (Table.index_WF dflt w t b h)

theorem Table.assign_count_self (dflt : Distribution α) (w : World) (t : Table α) (b : String)
    (v : Distribution α) (h : StdMap.WF t.table) :
    StdMap.count (Table.assign dflt w t b v).2.table b = 1 := by
  rw [Table.assign_table, StdMap.count_update]
  exact Table.index_count_self dflt w t b h

end StdMapLemmas

/-! ## Lemmas on rounding -/

section Rounding

theorem size_eq_succ {n s : ℕ} (h₁ : 2 ^ s ≤ n) (h₂ : n < 2 ^ (s + 1)) : Nat.size n = s + 1 := by
  apply le_antisymm
  · exact Nat.size_le.mpr h₂
  · exact Nat.lt_size.mpr h₁

theorem roundHalfEven_of_dvd (x d : ℕ) (hd : 0 < d) : roundHalfEven (x * d) d = x := by
  unfold roundHalfEven
  have h1 : x * d % d = 0 := Nat.mul_mod_left x d
  have h2 : x * d / d = x := Nat.mul_div_cancel x hd
  simp [h1, h2, hd]

theorem roundHalfEven_zero (d : ℕ) (hd : 0 < d) : roundHalfEven 0 d = 0 := by
  simpa using roundHalfEven_of_dvd 0 d hd

theorem roundHalfEven_ge (n d : ℕ) : n / d ≤ roundHalfEven n d := by
  unfold roundHalfEven
  split
  · exact le_rfl
  · split
    · exact Nat.le_succ _
    · split
      · exact le_rfl
      · exact Nat.le_succ _

theorem roundHalfEven_le (n d : ℕ) : roundHalfEven n d ≤ n / d + 1 := by
  unfold roundHalfEven
  split
  · exact Nat.le_succ _
  · split
    · exact le_rfl
    · split
      · exact Nat.le_succ _
      · exact le_rfl

/-- The rounding error is at most half of `d`. -/
theorem roundHalfEven_bounds (n d : ℕ) (hd : 0 < d) :
    2 * (roundHalfEven n d * d) ≤ 2 * n + d ∧ 2 * n ≤ 2 * (roundHalfEven n d * d) + d := by
  have hdm := Nat.div_add_mod n d
  have hlt := Nat.mod_lt n hd
  unfold roundHalfEven
  generalize n / d = q at hdm ⊢
  generalize n % d = r at hdm hlt ⊢
  subst hdm
  have e : (q + 1) * d = d * q + d := by ring
  have e' : q * d = d * q := by ring
  split
  · rw [e']
    constructor <;> omega
  · split
    · rw [e]
      constructor <;> omega
    · split
      · rw [e']
        constructor <;> omega
      · rw [e]
        constructor <;> omega

theorem roundHalfEven_scale (n d t : ℕ) (ht : 0 < t) :
    roundHalfEven (n * t) (d * t) = roundHalfEven n d := by
  unfold roundHalfEven
  have h1 : n * t / (d * t) = n / d := Nat.mul_div_mul_right n d ht
  have h2 : n * t % (d * t) = n % d * t := Nat.mul_mod_mul_right t n d
  rw [h1, h2]
  have e1 : (2 * (n % d * t) < d * t) ↔ (2 * (n % d) < d) := by
    rw [← Nat.mul_assoc]
    exact Nat.mul_lt_mul_right ht
  have e2 : (d * t < 2 * (n % d * t)) ↔ (d < 2 * (n % d)) := by
    rw [← Nat.mul_assoc]
    exact Nat.mul_lt_mul_right ht
  simp only [e1, e2]

theorem roundUnits_zero (d : ℕ) (hd : 0 < d) : roundUnits 0 d = 0 := by
  unfold roundUnits
  simp [quantumExp, roundHalfEven_zero, hd]

theorem roundUnits_eq_zero_iff (n d : ℕ) (hd : 0 < d) : roundUnits n d = 0 ↔ 2 * n ≤ d := by
  unfold roundUnits
  by_cases hf : n / d = 0
  · have hn : n < d := (Nat.div_eq_zero_iff hd).mp hf
    have hmod : n % d = n := Nat.mod_eq_of_lt hn
    simp only [hf, quantumExp, Nat.size_zero, Nat.zero_sub, pow_zero, mul_one]
    unfold roundHalfEven
    rw [hf, hmod]
    by_cases h1 : 2 * n < d
    · simp [h1]; omega
    · by_cases h2 : d < 2 * n
      · simp [h1, h2]
      · simp [h1, h2]; omega
  · have hpos : 0 < n / d := Nat.pos_of_ne_zero hf
    have hnd : d ≤ n := by
      by_contra h
      exact hf (Nat.div_eq_of_lt (not_le.mp h))
    have hq : 2 ^ quantumExp (n / d) ≤ n / d := by
      unfold quantumExp
      have hs : 0 < Nat.size (n / d) := Nat.size_pos.mpr hpos
      have : 2 ^ (Nat.size (n / d) - 1) ≤ n / d := by
        apply Nat.lt_size.mp
        omega
      exact le_trans (Nat.pow_le_pow_right (by norm_num) (by omega)) this
    have hge := roundHalfEven_ge n (d * 2 ^ quantumExp (n / d))
    have hdiv : 1 ≤ n / (d * 2 ^ quantumExp (n / d)) := by
      rw [← Nat.div_div_eq_div_mul]
      exact (Nat.one_le_div_iff (by positivity)).mpr hq
    have hpos2 : 0 < roundHalfEven n (d * 2 ^ quantumExp (n / d)) * 2 ^ quantumExp (n / d) :=
      Nat.mul_pos (by omega) (by positivity)
    constructor
    · intro h
      omega
    · intro h
      omega

/-- A magnitude that is `k * d` for a representable `k` is not changed by rounding. -/
theorem roundUnits_exact (k d : ℕ) (hd : 0 < d) (hk : k % 2 ^ quantumExp k = 0) :
    roundUnits (k * d) d = k := by
  unfold roundUnits
  have h2 : k * d / d = k := Nat.mul_div_cancel k hd
  rw [h2]
  obtain ⟨x, hx⟩ := Nat.dvd_of_mod_eq_zero hk
  have h3 : k * d = x * (d * 2 ^ quantumExp k) := by
    conv_lhs => rw [hx]
    ring
  rw [h3, roundHalfEven_of_dvd _ _ (by positivity)]
  conv_rhs => rw [hx]
  ring


theorem sqrtRound_interval (M p j : ℕ) (hp₁ : 2 ^ 52 ≤ p) (hp₂ : p < 2 ^ 53)
    (h₁ : (p * 2 ^ j) ^ 2 ≤ M) (h₂ : M < ((p + 1) * 2 ^ j) ^ 2) :
    Nat.sqrt M / 2 ^ quantumExp (Nat.sqrt M) = p ∧ quantumExp (Nat.sqrt M) = j := by
  have hG : 0 < 2 ^ j := by positivity
  have hlo : p * 2 ^ j ≤ Nat.sqrt M := Nat.le_sqrt'.mpr h₁
  have hhi : Nat.sqrt M < (p + 1) * 2 ^ j := Nat.sqrt_lt'.mpr h₂
  have hsize : Nat.size (Nat.sqrt M) = 52 + j + 1 := by
    apply size_eq_succ
    · calc 2 ^ (52 + j) = 2 ^ 52 * 2 ^ j := pow_add 2 52 j
        _ ≤ p * 2 ^ j := Nat.mul_le_mul_right _ hp₁
        _ ≤ Nat.sqrt M := hlo
    · calc Nat.sqrt M < (p + 1) * 2 ^ j := hhi
        _ ≤ 2 ^ 53 * 2 ^ j := Nat.mul_le_mul_right _ hp₂
        _ = 2 ^ (52 + j + 1) := by rw [← pow_add]; congr 1; omega
  have hq : quantumExp (Nat.sqrt M) = j := by
    unfold quantumExp
    rw [hsize]
    omega
  refine ⟨?_, hq⟩
  rw [hq]
  exact Nat.div_eq_of_lt_le (by simpa using hlo) (by simpa using hhi)

theorem sqrtRound_down (M p j : ℕ) (hp₁ : 2 ^ 52 ≤ p) (hp₂ : p < 2 ^ 53)
    (h₁ : (p * 2 ^ j) ^ 2 ≤ M) (h₂ : 4 * M < ((2 * p + 1) * 2 ^ j) ^ 2) :
    sqrtRound M = p * 2 ^ j := by
  have hG : 0 < 2 ^ j := by positivity
  have h₃ : M < ((p + 1) * 2 ^ j) ^ 2 := by
    have : ((2 * p + 1) * 2 ^ j) ^ 2 ≤ 4 * ((p + 1) * 2 ^ j) ^ 2 := by
      have e : 4 * ((p + 1) * 2 ^ j) ^ 2 = ((2 * p + 2) * 2 ^ j) ^ 2 := by ring
      rw [e]
      exact Nat.pow_le_pow_left (Nat.mul_le_mul_right _ (by omega)) 2
    omega
  obtain ⟨hdiv, hq⟩ := sqrtRound_interval M p j hp₁ hp₂ h₁ h₃
  rw [hq] at hdiv
  unfold sqrtRound
  simp only [hq, hdiv]
  have e : 2 * (p * 2 ^ j) + 2 ^ j = (2 * p + 1) * 2 ^ j := by ring
  rw [e, if_pos h₂]

theorem sqrtRound_up (M p j : ℕ) (hp₁ : 2 ^ 52 ≤ p) (hp₂ : p < 2 ^ 53)
    (h₁ : ((2 * p + 1) * 2 ^ j) ^ 2 < 4 * M) (h₂ : M < ((p + 1) * 2 ^ j) ^ 2) :
    sqrtRound M = (p + 1) * 2 ^ j := by
  have hG : 0 < 2 ^ j := by positivity
  have h₃ : (p * 2 ^ j) ^ 2 ≤ M := by
    have : 4 * (p * 2 ^ j) ^ 2 ≤ ((2 * p + 1) * 2 ^ j) ^ 2 := by
      have e : 4 * (p * 2 ^ j) ^ 2 = ((2 * p) * 2 ^ j) ^ 2 := by ring
      rw [e]
      exact Nat.pow_le_pow_left (Nat.mul_le_mul_right _ (by omega)) 2
    omega
  obtain ⟨hdiv, hq⟩ := sqrtRound_interval M p j hp₁ hp₂ h₃ h₂
  rw [hq] at hdiv
  unfold sqrtRound
  simp only [hq, hdiv]
  have e : 2 * (p * 2 ^ j) + 2 ^ j = (2 * p + 1) * 2 ^ j := by ring
  rw [e, if_neg (by omega), if_pos h₁]
  ring

theorem sqrtRound_pos (M : ℕ) (hM : 0 < M) : 0 < sqrtRound M := by
  have hs : 0 < Nat.sqrt M := Nat.sqrt_pos.mpr hM
  have hg : 2 ^ quantumExp (Nat.sqrt M) ≤ Nat.sqrt M := by
    unfold quantumExp
    have hsz : 0 < Nat.size (Nat.sqrt M) := Nat.size_pos.mpr hs
    have : 2 ^ (Nat.size (Nat.sqrt M) - 1) ≤ Nat.sqrt M := by
      apply Nat.lt_size.mp
      omega
    exact le_trans (Nat.pow_le_pow_right (by norm_num) (by omega)) this
  have hdiv : 1 ≤ Nat.sqrt M / 2 ^ quantumExp (Nat.sqrt M) :=
    (Nat.one_le_div_iff (by positivity)).mpr hg
  have hlower : 0 < Nat.sqrt M / 2 ^ quantumExp (Nat.sqrt M) * 2 ^ quantumExp (Nat.sqrt M) :=
    Nat.mul_pos (by omega) (by positivity)
  unfold sqrtRound
  simp only
  split
  · exact hlower
  · split
    · exact Nat.add_pos_left hlower _
    · split
      · exact hlower
      · exact Nat.add_pos_left hlower _


theorem pow_two_split {a b c : ℕ} (h : a = b + c) : 2 ^ a = 2 ^ b * 2 ^ c := by
  rw [h, pow_add]

/-- The rounded product of `m * 2^(511+t)` with itself, for a 53-bit `m` whose square has
`c + 53` bits: the square of `m` rounded to 53 bits, at the matching power of two. -/
theorem roundUnits_square (m t c : ℕ) (hc : 52 ≤ c) (h₁ : 2 ^ (c + 52) ≤ m ^ 2)
    (h₂ : m ^ 2 < 2 ^ (c + 53)) :
    roundUnits ((m * 2 ^ (511 + t)) * (m * 2 ^ (511 + t))) (2 ^ 1074)
      = roundHalfEven (m ^ 2) (2 ^ c) * 2 ^ (c - 52 + 2 * t) := by
  have hn : (m * 2 ^ (511 + t)) * (m * 2 ^ (511 + t)) = m ^ 2 * 2 ^ (1022 + 2 * t) := by
    have : (2 : ℕ) ^ (1022 + 2 * t) = 2 ^ (511 + t) * 2 ^ (511 + t) :=
      pow_two_split (by omega)
    rw [this]
    ring
  rw [hn]
  have hd : (0 : ℕ) < 2 ^ 1074 := by positivity
  have hsize : Nat.size (m ^ 2 * 2 ^ (1022 + 2 * t) / 2 ^ 1074) = c + 2 * t + 1 := by
    apply size_eq_succ
    · rw [Nat.le_div_iff_mul_le hd]
      calc 2 ^ (c + 2 * t) * 2 ^ 1074 = 2 ^ (c + 52) * 2 ^ (1022 + 2 * t) := by
            rw [← pow_add, ← pow_add]; congr 1; omega
        _ ≤ m ^ 2 * 2 ^ (1022 + 2 * t) := Nat.mul_le_mul_right _ h₁
    · rw [Nat.div_lt_iff_lt_mul hd]
      calc m ^ 2 * 2 ^ (1022 + 2 * t) < 2 ^ (c + 53) * 2 ^ (1022 + 2 * t) :=
            Nat.mul_lt_mul_of_pos_right h₂ (by positivity)
        _ = 2 ^ (c + 2 * t + 1) * 2 ^ 1074 := by
            rw [← pow_add, ← pow_add]; congr 1; omega
  have hq : quantumExp (m ^ 2 * 2 ^ (1022 + 2 * t) / 2 ^ 1074) = c - 52 + 2 * t := by
    unfold quantumExp
    rw [hsize]
    omega
  unfold roundUnits
  rw [hq]
  have hD : (2 : ℕ) ^ 1074 * 2 ^ (c - 52 + 2 * t) = 2 ^ c * 2 ^ (1022 + 2 * t) := by
    rw [← pow_add, ← pow_add]; congr 1; omega
  rw [hD, roundHalfEven_scale _ _ _ (by positivity)]

theorem sqrtUnits_square_aux (m t c : ℕ) (hm₁ : 2 ^ 52 ≤ m) (hm₂ : m < 2 ^ 53)
    (hc : 52 ≤ c) (hc' : c ≤ 53) (h₁ : 2 ^ (c + 52) ≤ m ^ 2) (h₂ : m ^ 2 < 2 ^ (c + 53)) :
    sqrtUnits (roundUnits ((m * 2 ^ (511 + t)) * (m * 2 ^ (511 + t))) (2 ^ 1074))
      = m * 2 ^ (511 + t) ∧
    0 < roundUnits ((m * 2 ^ (511 + t)) * (m * 2 ^ (511 + t))) (2 ^ 1074) ∧
    roundUnits ((m * 2 ^ (511 + t)) * (m * 2 ^ (511 + t))) (2 ^ 1074) * 2 ^ 1074
      < 2 ^ 106 * (2 ^ (511 + t)) ^ 2 := by
  have hG : 0 < (2 ^ (511 + t)) ^ 2 := by positivity
  have hround := roundUnits_square m t c hc h₁ h₂
  have hb := roundHalfEven_bounds (m ^ 2) (2 ^ c) (by positivity)
  -- the rounded square, scaled: `Q * G ^ 2`
  have hM : roundUnits ((m * 2 ^ (511 + t)) * (m * 2 ^ (511 + t))) (2 ^ 1074) * 2 ^ 1074
      = roundHalfEven (m ^ 2) (2 ^ c) * 2 ^ c * (2 ^ (511 + t)) ^ 2 := by
    rw [hround, ← pow_mul, Nat.mul_assoc, Nat.mul_assoc, ← pow_add, ← pow_add]
    congr 2
    omega
  -- the rounding error of the square is below `m`
  have hcases : (2 ^ 52 < m ∧ 2 ^ c + 2 ≤ 2 * m) ∨
      roundHalfEven (m ^ 2) (2 ^ c) * 2 ^ c = m ^ 2 := by
    by_cases hm : m = 2 ^ 52
    · right
      subst hm
      have hc52 : c = 52 := by
        have : c + 52 ≤ 104 := by
          by_contra hgt
          have : (2 : ℕ) ^ 105 ≤ 2 ^ (c + 52) := Nat.pow_le_pow_right (by norm_num) (by omega)
          norm_num at this h₁
          omega
        omega
      subst hc52
      have e : ((2 : ℕ) ^ 52) ^ 2 = 2 ^ 52 * 2 ^ 52 := by ring
      rw [e, roundHalfEven_of_dvd _ _ (by positivity)]
    · left
      have hc53 : (2 : ℕ) ^ c ≤ 2 ^ 53 := Nat.pow_le_pow_right (by norm_num) hc'
      have : 2 ^ 52 + 1 ≤ m := by omega
      norm_num at hc53 this ⊢
      omega
  generalize roundHalfEven (m ^ 2) (2 ^ c) * 2 ^ c = Q at hb hM hcases
  have hm1 : 1 ≤ m := le_trans (by norm_num) hm₁
  have hmm : m ≤ m ^ 2 := by nlinarith
  have hQ₁ : m ^ 2 + 1 ≤ Q + m := by
    rcases hcases with h | h
    · omega
    · omega
  have hQ₂ : Q + 1 ≤ m ^ 2 + m := by
    rcases hcases with h | h
    · omega
    · omega
  have hQ₃ : Q < m ^ 2 → 2 ^ 52 < m := by
    intro hlt
    rcases hcases with h | h
    · exact h.1
    · omega
  have hsq : sqrtRound (Q * (2 ^ (511 + t)) ^ 2) = m * 2 ^ (511 + t) := by
    by_cases hQ : m ^ 2 ≤ Q
    · apply sqrtRound_down _ m (511 + t) hm₁ hm₂
      · rw [mul_pow]
        exact Nat.mul_le_mul_right _ hQ
      · rw [mul_pow, ← Nat.mul_assoc]
        apply Nat.mul_lt_mul_of_pos_right _ hG
        have e : (2 * m + 1) ^ 2 = 4 * m ^ 2 + 4 * m + 1 := by ring
        omega
    · have hlt : Q < m ^ 2 := not_le.mp hQ
      have hm52 := hQ₃ hlt
      obtain ⟨p, rfl⟩ : ∃ p, m = p + 1 := ⟨m - 1, by omega⟩
      apply sqrtRound_up _ p (511 + t) (by omega) (by omega)
      · rw [mul_pow, ← Nat.mul_assoc]
        apply Nat.mul_lt_mul_of_pos_right _ hG
        have e : (2 * p + 1) ^ 2 + 4 * (p + 1) = 4 * (p + 1) ^ 2 + 1 := by ring
        omega
      · rw [mul_pow]
        exact Nat.mul_lt_mul_of_pos_right hlt hG
  refine ⟨?_, ?_, ?_⟩
  · unfold sqrtUnits
    rw [hM, hsq]
  · by_contra h0
    have h0' : roundUnits ((m * 2 ^ (511 + t)) * (m * 2 ^ (511 + t))) (2 ^ 1074) = 0 := by
      omega
    rw [h0', Nat.zero_mul] at hM
    have hQpos : 0 < Q := by omega
    have := Nat.mul_pos hQpos hG
    omega
  · rw [hM]
    apply Nat.mul_lt_mul_of_pos_right _ hG
    have hm53 : m ≤ 2 ^ 53 - 1 := by omega
    have hsqb : m ^ 2 ≤ (2 ^ 53 - 1) ^ 2 := Nat.pow_le_pow_left hm53 2
    norm_num at hsqb hm53 ⊢
    omega

end Rounding

/-! ## CI : location and spread -/

section CredenceInterval

theorem CI_degenerate_real (z v : ℝ) (hv : 0 < v) :
    (CI Real.sqrt Real.log z v v).p_m = v ∧ (CI Real.sqrt Real.log z v v).p_s = 0 := by
  constructor
  · simp [CI, Distribution.ofParams, Real.sqrt_mul_self (le_of_lt hv)]
  · simp [CI, Distribution.ofParams, div_self (ne_of_gt hv)]

/-- C4 (as stated, refuted): the interval `lo = -1`, `hi = 1` is malformed (`lo <= 0`), and the
call `CI(-1, 1)` does not fail: it returns a `Distribution`. -/
theorem CI_call_malformed_returns :
    ¬ ((∃ what, CI_call Real.sqrt Real.log ((GAUSSIAN_90TH_PERCENTILE : ℚ) : ℝ) (-1) 1
          = Call.throws what)
        ↔ ((-1 : ℝ) ≤ 0 ∨ (1 : ℝ) < -1)) := by
  intro h
  obtain ⟨what, hw⟩ := h.mpr (Or.inl (by norm_num))
  simp [CI_call] at hw

/-- C4 (amended): `CI(lo, hi)` never fails.  For every numeric type, every `sqrt`, `log` and `z`
and every `lo`, `hi`, malformed or not, the call returns the `Distribution` with
`p_m = sqrt(lo * hi)` and `p_s = sqrt(log(hi / lo) / log(10) / 2 / z)`; no argument is tested or
clamped. -/
theorem CI_call_always_returns {α : Type} [Mul α] [Div α] [NatCast α] (sqrt log : α → α)
    (z lo hi : α) :
    (∀ what, CI_call sqrt log z lo hi ≠ Call.throws what) ∧
    ∃ d : Distribution α, CI_call sqrt log z lo hi = Call.returns d ∧
      d.p_m = sqrt (lo * hi) ∧
      d.p_s = sqrt (log (hi / lo) / log ((10 : Nat) : α) / ((2 : Nat) : α) / z) := by
  refine ⟨?_, CI sqrt log z lo hi, rfl, rfl, rfl⟩
  intro what h
  simp [CI_call] at h

end CredenceInterval

/-! ## CI on doubles : the values of location and spread -/

section DoubleValues

theorem F64.mul_fin (s t : Bool) (a b : ℕ) :
    F64.fin s a * F64.fin t b
      = F64.ofMagnitude (xor s t) (roundUnits (a * b) (2 ^ 1074)) := by
  show F64.mul (F64.fin s a) (F64.fin t b) = _
  rw [F64.mul]

theorem F64.lt_zero_fin (k : ℕ) :
    F64.lt (F64.fin false 0) (F64.fin false k) = decide (0 < k) := rfl

theorem F64.le_fin (a b : ℕ) :
    F64.le (F64.fin false a) (F64.fin false b) = decide (a ≤ b) := rfl

theorem F64.sqrt_fin (k : ℕ) (hk : k ≠ 0) :
    F64.sqrt (F64.fin false k) = F64.fin false (sqrtUnits k) := by
  rw [F64.sqrt, if_neg hk]
  rfl

theorem F64.div_fin (s t : Bool) (a b : ℕ) (hb : b ≠ 0) :
    F64.fin s a / F64.fin t b
      = F64.ofMagnitude (xor s t) (roundUnits (a * 2 ^ 1074) b) := by
  show F64.div (F64.fin s a) (F64.fin t b) = _
  rw [F64.div, if_neg hb]

theorem F64.ofMagnitude_eq_zero_iff (k : ℕ) :
    F64.ofMagnitude false k = F64.fin false 0 ↔ k = 0 := by
  unfold F64.ofMagnitude
  by_cases h : 2 ^ 2098 ≤ k
  · have hpow : (0 : ℕ) < 2 ^ 2098 := by positivity
    rw [if_pos h]
    constructor
    · intro h'
      cases h'
    · intro h0
      omega
  · rw [if_neg h]
    constructor
    · intro h'
      injection h'
    · intro h0
      rw [h0]

theorem F64.ofMagnitude_of_lt (neg : Bool) (k : ℕ) (h : k < 2 ^ 2098) :
    F64.ofMagnitude neg k = F64.fin neg k := by
  unfold F64.ofMagnitude
  rw [if_neg (by omega)]

theorem F64.sqrt_ofMagnitude (k : ℕ) :
    F64.lt (F64.fin false 0) (F64.sqrt (F64.ofMagnitude false k)) = decide (0 < k) ∧
    (k = 0 → F64.sqrt (F64.ofMagnitude false k) = F64.fin false 0) := by
  unfold F64.ofMagnitude
  by_cases h : 2 ^ 2098 ≤ k
  · have hk : 0 < k := lt_of_lt_of_le (by positivity) h
    rw [if_pos h]
    refine ⟨?_, fun h0 => absurd h0 (by omega)⟩
    rw [decide_eq_true hk]
    rfl
  · rw [if_neg h]
    by_cases hk : k = 0
    · subst hk
      exact ⟨rfl, fun _ => rfl⟩
    · have hpos : 0 < k := Nat.pos_of_ne_zero hk
      have hs : 0 < sqrtUnits k := sqrtRound_pos _ (Nat.mul_pos hpos (by positivity))
      refine ⟨?_, fun h0 => absurd h0 hk⟩
      rw [F64.sqrt_fin k hk, F64.lt_zero_fin, decide_eq_true hs, decide_eq_true hpos]

theorem F64.zero_div_pos (y : F64) (hy : F64.lt (F64.fin false 0) y = true) :
    F64.fin false 0 / y = F64.fin false 0 := by
  cases y with
  | nan => simp [F64.lt] at hy
  | inf t =>
    cases t with
    | true => simp [F64.lt] at hy
    | false => rfl
  | fin t b =>
    cases t with
    | true => simp [F64.lt] at hy
    | false =>
      have hb : 0 < b := by simpa [F64.lt] using hy
      rw [F64.div_fin _ _ _ _ (by omega), Nat.zero_mul, roundUnits_zero _ hb]
      exact F64.ofMagnitude_of_lt _ _ (by positivity)

theorem F64.natCast_def (n : ℕ) :
    ((n : ℕ) : F64) = F64.ofMagnitude false (roundUnits (n * 2 ^ 1074) 1) := rfl

theorem F64.natCast_pos (n : ℕ) (hn : 0 < n) :
    F64.lt (F64.fin false 0) ((n : ℕ) : F64) = true := by
  rw [F64.natCast_def]
  have hne : roundUnits (n * 2 ^ 1074) 1 ≠ 0 := by
    intro h0
    have h1 := (roundUnits_eq_zero_iff _ 1 (by norm_num)).mp h0
    have h2 : 1 ≤ n * 2 ^ 1074 := Nat.mul_pos hn (by positivity)
    omega
  have hpos : 0 < roundUnits (n * 2 ^ 1074) 1 := Nat.pos_of_ne_zero hne
  unfold F64.ofMagnitude
  split
  · rfl
  · rw [F64.lt_zero_fin]
    exact decide_eq_true hpos

theorem quantumExp_two_pow (n : ℕ) : quantumExp (2 ^ n) = n + 1 - 53 := by
  unfold quantumExp
  rw [Nat.size_pow]

/-- A finite double that is not zero, divided by itself, is `1.0`. -/
theorem F64.div_self (s : Bool) (k : ℕ) (hk : 0 < k) :
    F64.fin s k / F64.fin s k = F64.fin false (2 ^ 1074) := by
  rw [F64.div_fin _ _ _ _ (by omega), Nat.mul_comm k, roundUnits_exact _ _ hk]
  · rw [F64.ofMagnitude_of_lt _ _ (by norm_num)]
    cases s <;> rfl
  · rw [quantumExp_two_pow]
    norm_num

/-- A finite positive double `v` with `2^-511 <= v < 2^512`, written `m * 2^j` units with a
53-bit `m`. -/
theorem F64.representable_normal (k : ℕ) (hrep : F64.representable k) (h₁ : 2 ^ 563 ≤ k)
    (h₂ : k < 2 ^ 1586) :
    ∃ m t, 2 ^ 52 ≤ m ∧ m < 2 ^ 53 ∧ t ≤ 1022 ∧ k = m * 2 ^ (511 + t) := by
  have hs₁ : 563 < Nat.size k := Nat.lt_size.mpr h₁
  have hs₂ : Nat.size k ≤ 1586 := Nat.size_le.mpr h₂
  have hlo : 2 ^ (Nat.size k - 1) ≤ k := Nat.lt_size.mp (by omega)
  have hhi : k < 2 ^ Nat.size k := Nat.size_le.mp le_rfl
  have hdvd : 2 ^ (Nat.size k - 53) ∣ k := Nat.dvd_of_mod_eq_zero hrep.1
  have hG : 0 < 2 ^ (Nat.size k - 53) := by positivity
  refine ⟨k / 2 ^ (Nat.size k - 53), Nat.size k - 53 - 511, ?_, ?_, by omega, ?_⟩
  · rw [Nat.le_div_iff_mul_le hG]
    have e : 2 ^ (Nat.size k - 1) = 2 ^ 52 * 2 ^ (Nat.size k - 53) := pow_two_split (by omega)
    rw [← e]
    exact hlo
  · rw [Nat.div_lt_iff_lt_mul hG]
    have e : 2 ^ Nat.size k = 2 ^ 53 * 2 ^ (Nat.size k - 53) := pow_two_split (by omega)
    rw [← e]
    exact hhi
  · have e : 511 + (Nat.size k - 53 - 511) = Nat.size k - 53 := by omega
    rw [e]
    exact (Nat.div_mul_cancel hdvd).symm

/-- For a double `v` with `2^-511 <= v < 2^512`, `sqrt(v * v)` is `v`. -/
theorem F64.sqrt_mul_self (k : ℕ) (hrep : F64.representable k) (h₁ : 2 ^ 563 ≤ k)
    (h₂ : k < 2 ^ 1586) :
    F64.sqrt (F64.fin false k * F64.fin false k) = F64.fin false k := by
  obtain ⟨m, t, hm₁, hm₂, ht, rfl⟩ := F64.representable_normal k hrep h₁ h₂
  have hsq₁ : 2 ^ 104 ≤ m ^ 2 := by
    calc (2 : ℕ) ^ 104 = (2 ^ 52) ^ 2 := by norm_num
      _ ≤ m ^ 2 := Nat.pow_le_pow_left hm₁ 2
  have hsq₂ : m ^ 2 < 2 ^ 106 := by
    calc m ^ 2 < (2 ^ 53) ^ 2 := Nat.pow_lt_pow_left hm₂ (by norm_num)
      _ = 2 ^ 106 := by norm_num
  have haux : sqrtUnits (roundUnits ((m * 2 ^ (511 + t)) * (m * 2 ^ (511 + t))) (2 ^ 1074))
        = m * 2 ^ (511 + t) ∧
      0 < roundUnits ((m * 2 ^ (511 + t)) * (m * 2 ^ (511 + t))) (2 ^ 1074) ∧
      roundUnits ((m * 2 ^ (511 + t)) * (m * 2 ^ (511 + t))) (2 ^ 1074) * 2 ^ 1074
        < 2 ^ 106 * (2 ^ (511 + t)) ^ 2 := by
    by_cases h105 : m ^ 2 < 2 ^ 105
    · exact sqrtUnits_square_aux m t 52 hm₁ hm₂ le_rfl (by norm_num) hsq₁ h105
    · exact sqrtUnits_square_aux m t 53 hm₁ hm₂ (by norm_num) le_rfl (not_lt.mp h105) hsq₂
  obtain ⟨hsqrt, hpos, hbound⟩ := haux
  have hfin : roundUnits ((m * 2 ^ (511 + t)) * (m * 2 ^ (511 + t))) (2 ^ 1074) < 2 ^ 2098 := by
    have hle : 2 ^ 106 * (2 ^ (511 + t)) ^ 2 ≤ 2 ^ 2098 * 2 ^ 1074 := by
      rw [← pow_mul, ← pow_add, ← pow_add]
      exact pow_le_pow_right₀ (by norm_num) (by omega)
    exact Nat.lt_of_mul_lt_mul_right (lt_of_lt_of_le hbound hle)
  rw [F64.mul_fin, F64.ofMagnitude_of_lt _ _ hfin]
  show F64.sqrt (F64.fin false _) = _
  rw [F64.sqrt_fin _ (by omega), hsqrt]

theorem CI_p_m_double (log : F64 → F64) (z lo hi : F64) :
    (CI F64.sqrt log z lo hi).p_m = F64.sqrt (lo * hi) := rfl

theorem CI_singleton_def (log : F64 → F64) (z v : F64) :
    CI_singleton F64.sqrt log z v = CI F64.sqrt log z v v := rfl

theorem CI_p_s_double (log : F64 → F64) (z lo hi : F64) :
    (CI F64.sqrt log z lo hi).p_s
      = F64.sqrt (log (hi / lo) / log ((10 : ℕ) : F64) / ((2 : ℕ) : F64) / z) := rfl

/-- The product of two doubles with `0 < lo <= hi` is infinite or a finite value that is not
negative. -/
theorem F64.mul_of_pos_le (lo hi : F64) (hlo : F64.lt (F64.fin false 0) lo = true)
    (hle : F64.le lo hi = true) :
    ∃ k, lo * hi = F64.ofMagnitude false k ∧
      ∀ a b, lo = F64.fin false a → hi = F64.fin false b → k = roundUnits (a * b) (2 ^ 1074) := by
  cases lo with
  | nan => simp [F64.lt] at hlo
  | inf s =>
    cases s with
    | true => simp [F64.lt] at hlo
    | false =>
      cases hi with
      | nan => simp [F64.le] at hle
      | fin t b => simp [F64.le] at hle
      | inf t =>
        cases t with
        | true => simp [F64.le] at hle
        | false =>
          refine ⟨2 ^ 2098, ?_, ?_⟩
          · show F64.mul (F64.inf false) (F64.inf false) = _
            rw [F64.mul, F64.ofMagnitude, if_pos le_rfl]
            rfl
          · intro a b h
            cases h
  | fin s a =>
    cases s with
    | true => simp [F64.lt] at hlo
    | false =>
      have ha : 0 < a := by simpa [F64.lt] using hlo
      cases hi with
      | nan => simp [F64.le] at hle
      | inf t =>
        cases t with
        | true => simp [F64.le] at hle
        | false =>
          refine ⟨2 ^ 2098, ?_, ?_⟩
          · show F64.mul (F64.fin false a) (F64.inf false) = _
            have : a ≠ 0 := by omega
            rw [F64.mul, if_neg this, F64.ofMagnitude, if_pos le_rfl]
            rfl
          · intro a' b h h'
            cases h'
      | fin t b =>
        cases t with
        | true =>
          simp only [F64.le, Bool.and_eq_true, decide_eq_true_eq] at hle
          omega
        | false =>
          refine ⟨roundUnits (a * b) (2 ^ 1074), F64.mul_fin _ _ _ _, ?_⟩
          intro a' b' h h'
          cases h
          cases h'
          rfl

/-- C2 (as stated, refuted): `lo = 2^-600` and `hi = 2^-500` are doubles with `0 < lo <= hi`; the
product `lo * hi = 2^-1100` underflows to `0`, so the location `p_m` of `CI(lo, hi)` is `0`: it is
not strictly positive, and it is not the square root `2^-550` of `lo * hi`. -/
theorem CI_location_underflow :
    F64.representable (2 ^ 474) ∧ F64.representable (2 ^ 574) ∧
    F64.lt (F64.fin false 0) (F64.fin false (2 ^ 474)) = true ∧
    F64.le (F64.fin false (2 ^ 474)) (F64.fin false (2 ^ 574)) = true ∧
    ∀ (log : F64 → F64) (z : F64),
      (CI F64.sqrt log z (F64.fin false (2 ^ 474)) (F64.fin false (2 ^ 574))).p_m
        = F64.fin false 0 ∧
      F64.lt (F64.fin false 0)
        (CI F64.sqrt log z (F64.fin false (2 ^ 474)) (F64.fin false (2 ^ 574))).p_m = false ∧
      (CI F64.sqrt log z (F64.fin false (2 ^ 474)) (F64.fin false (2 ^ 574))).p_m
        ≠ F64.fin false (2 ^ 524) := by
  have hprod : roundUnits (2 ^ 474 * 2 ^ 574) (2 ^ 1074) = 0 :=
    (roundUnits_eq_zero_iff _ _ (by positivity)).mpr (by norm_num)
  have hpm : ∀ (log : F64 → F64) (z : F64),
      (CI F64.sqrt log z (F64.fin false (2 ^ 474)) (F64.fin false (2 ^ 574))).p_m
        = F64.fin false 0 := by
    intro log z
    rw [CI_p_m_double, F64.mul_fin, hprod]
    exact (F64.sqrt_ofMagnitude 0).2 rfl
  refine ⟨⟨?_, by norm_num⟩, ⟨?_, by norm_num⟩, ?_, ?_, ?_⟩
  · rw [quantumExp_two_pow]
    norm_num
  · rw [quantumExp_two_pow]
    norm_num
  · rw [F64.lt_zero_fin]
    exact decide_eq_true (by positivity)
  · rw [F64.le_fin]
    exact decide_eq_true (pow_le_pow_right₀ (by norm_num) (by norm_num))
  · intro log z
    rw [hpm log z]
    refine ⟨rfl, by simp [F64.lt], ?_⟩
    intro h
    injection h with _ h'
    have : (0 : ℕ) < 2 ^ 524 := by positivity
    omega

/-- C2 (amended): for all doubles `lo`, `hi` with `0 < lo <= hi`, the location `p_m` of
`CI(lo, hi)` is `sqrt(lo * hi)` evaluated in double arithmetic (the product rounded, then the root
rounded); it is `+0` or strictly positive, never negative or NaN; it is strictly positive exactly
when the rounded product is not zero, which for finite `lo = a` units and `hi = b` units means
`lo * hi > 2^-1075`. -/
theorem CI_location_double (log : F64 → F64) (z lo hi : F64)
    (hlo : F64.lt (F64.fin false 0) lo = true) (hle : F64.le lo hi = true) :
    (CI F64.sqrt log z lo hi).p_m = F64.sqrt (lo * hi) ∧
    ((CI F64.sqrt log z lo hi).p_m = F64.fin false 0 ∨
      F64.lt (F64.fin false 0) (CI F64.sqrt log z lo hi).p_m = true) ∧
    (F64.lt (F64.fin false 0) (CI F64.sqrt log z lo hi).p_m = true ↔
      lo * hi ≠ F64.fin false 0) ∧
    (∀ a b : ℕ, lo = F64.fin false a → hi = F64.fin false b →
      (lo * hi = F64.fin false 0 ↔ 2 * (a * b) ≤ 2 ^ 1074)) := by
  obtain ⟨k, hk, hab⟩ := F64.mul_of_pos_le lo hi hlo hle
  have hs := F64.sqrt_ofMagnitude k
  rw [CI_p_m_double, hk]
  refine ⟨rfl, ?_, ?_, ?_⟩
  · by_cases h0 : k = 0
    · left
      exact hs.2 h0
    · right
      rw [hs.1]
      simpa using Nat.pos_of_ne_zero h0
  · rw [hs.1, Ne, F64.ofMagnitude_eq_zero_iff]
    simp [Nat.pos_iff_ne_zero]
  · intro a b ha hb
    rw [F64.ofMagnitude_eq_zero_iff, hab a b ha hb]
    exact roundUnits_eq_zero_iff _ _ (by positivity)

/-- Witness of `CI_location_double`, at `lo = 10`, `hi = 100`. -/
theorem CI_location_double_witness :
    F64.lt (F64.fin false 0)
      (CI F64.sqrt (fun x => x) (F64.fin false (5771595152841876 * 2 ^ 1022))
        (F64.fin false (10 * 2 ^ 1074)) (F64.fin false (100 * 2 ^ 1074))).p_m = true := by
  have h := CI_location_double (fun x => x) (F64.fin false (5771595152841876 * 2 ^ 1022))
    (F64.fin false (10 * 2 ^ 1074)) (F64.fin false (100 * 2 ^ 1074))
    (by rw [F64.lt_zero_fin]; exact decide_eq_true (by positivity))
    (by rw [F64.le_fin]; exact decide_eq_true (by norm_num))
  rw [h.2.2.1]
  intro h0
  have := (h.2.2.2 _ _ rfl rfl).mp h0
  norm_num at this

theorem F64.sqrt_zero : F64.sqrt (F64.fin false 0) = F64.fin false 0 := rfl

theorem quantumExp_of_bounds {n s : ℕ} (h₁ : 2 ^ s ≤ n) (h₂ : n < 2 ^ (s + 1)) :
    quantumExp n = s + 1 - 53 := by
  unfold quantumExp
  rw [size_eq_succ h₁ h₂]

/-- The literal `10` as a `double`. -/
theorem F64.natCast_ten : ((10 : ℕ) : F64) = F64.fin false (10 * 2 ^ 1074) := by
  rw [F64.natCast_def]
  have h : roundUnits (10 * 2 ^ 1074 * 1) 1 = 10 * 2 ^ 1074 := by
    apply roundUnits_exact _ _ (by norm_num)
    rw [quantumExp_of_bounds (s := 1077) (by norm_num) (by norm_num)]
    norm_num
  rw [Nat.mul_one] at h
  rw [h]
  exact F64.ofMagnitude_of_lt _ _ (by norm_num)

/-- C3 (as stated, refuted): `v = 2^-600` and `v = 2^600` are positive doubles; `v * v` underflows
to `0` for the first and overflows for the second, so the location `p_m` of `CI(v)` is `0` and
`inf`, not `v`. -/
theorem CI_singleton_location_not_v :
    F64.representable (2 ^ 474) ∧ F64.representable (2 ^ 1674) ∧
    F64.lt (F64.fin false 0) (F64.fin false (2 ^ 474)) = true ∧
    F64.lt (F64.fin false 0) (F64.fin false (2 ^ 1674)) = true ∧
    ∀ (log : F64 → F64) (z : F64),
      (CI_singleton F64.sqrt log z (F64.fin false (2 ^ 474))).p_m = F64.fin false 0 ∧
      (CI_singleton F64.sqrt log z (F64.fin false (2 ^ 474))).p_m ≠ F64.fin false (2 ^ 474) ∧
      (CI_singleton F64.sqrt log z (F64.fin false (2 ^ 1674))).p_m = F64.inf false ∧
      (CI_singleton F64.sqrt log z (F64.fin false (2 ^ 1674))).p_m
        ≠ F64.fin false (2 ^ 1674) := by
  have hsmall : roundUnits (2 ^ 474 * 2 ^ 474) (2 ^ 1074) = 0 :=
    (roundUnits_eq_zero_iff _ _ (by positivity)).mpr (by norm_num)
  have hbig : roundUnits (2 ^ 1674 * 2 ^ 1674) (2 ^ 1074) = 2 ^ 2274 := by
    have e : (2 : ℕ) ^ 1674 * 2 ^ 1674 = 2 ^ 2274 * 2 ^ 1074 := by
      rw [← pow_add, ← pow_add]
    rw [e]
    apply roundUnits_exact _ _ (by positivity)
    rw [quantumExp_two_pow]
    norm_num
  have h₁ : ∀ (log : F64 → F64) (z : F64),
      (CI_singleton F64.sqrt log z (F64.fin false (2 ^ 474))).p_m = F64.fin false 0 := by
    intro log z
    rw [CI_singleton_def, CI_p_m_double, F64.mul_fin, hsmall]
    exact (F64.sqrt_ofMagnitude 0).2 rfl
  have h₂ : ∀ (log : F64 → F64) (z : F64),
      (CI_singleton F64.sqrt log z (F64.fin false (2 ^ 1674))).p_m = F64.inf false := by
    intro log z
    rw [CI_singleton_def, CI_p_m_double, F64.mul_fin, hbig]
    unfold F64.ofMagnitude
    rw [if_pos (pow_le_pow_right₀ (by norm_num) (by norm_num))]
    rfl
  refine ⟨⟨?_, by norm_num⟩, ⟨?_, by norm_num⟩, ?_, ?_, ?_⟩
  · rw [quantumExp_two_pow]
    norm_num
  · rw [quantumExp_two_pow]
    norm_num
  · rw [F64.lt_zero_fin]
    exact decide_eq_true (by positivity)
  · rw [F64.lt_zero_fin]
    exact decide_eq_true (by positivity)
  · intro log z
    rw [h₁ log z, h₂ log z]
    refine ⟨rfl, ?_, rfl, ?_⟩
    · intro h
      injection h with _ h'
      have : (0 : ℕ) < 2 ^ 474 := by positivity
      omega
    · intro h
      cases h

/-- C3 (amended): for every finite double `v > 0` (`k` units), `CI(v)` is the distribution
`CI(v, v)`; its spread `p_s` is exactly `+0`, given that `log(1) = +0`, `log(10) > 0` and the
constant `z > 0`; its location `p_m` is `sqrt(v * v)` evaluated in double arithmetic, and that is
`v` whenever `2^-511 <= v < 2^512`, where `v * v` neither underflows nor overflows. -/
theorem CI_singleton_double (log : F64 → F64) (z : F64) (k : ℕ) (hk : 0 < k)
    (hrep : F64.representable k)
    (hlog₁ : log (F64.fin false (2 ^ 1074)) = F64.fin false 0)
    (hlog₁₀ : F64.lt (F64.fin false 0) (log ((10 : ℕ) : F64)) = true)
    (hz : F64.lt (F64.fin false 0) z = true) :
    CI_singleton F64.sqrt log z (F64.fin false k)
      = CI F64.sqrt log z (F64.fin false k) (F64.fin false k) ∧
    (CI_singleton F64.sqrt log z (F64.fin false k)).p_s = F64.fin false 0 ∧
    (CI_singleton F64.sqrt log z (F64.fin false k)).p_m
      = F64.sqrt (F64.fin false k * F64.fin false k) ∧
    (2 ^ 563 ≤ k → k < 2 ^ 1586 →
      (CI_singleton F64.sqrt log z (F64.fin false k)).p_m = F64.fin false k) := by
  rw [CI_singleton_def]
  refine ⟨rfl, ?_, CI_p_m_double log z _ _, ?_⟩
  · rw [CI_p_s_double, F64.div_self false k hk, hlog₁, F64.zero_div_pos _ hlog₁₀,
      F64.zero_div_pos _ (F64.natCast_pos 2 (by norm_num)), F64.zero_div_pos _ hz,
      F64.sqrt_zero]
  · intro h₁ h₂
    rw [CI_p_m_double]
    exact F64.sqrt_mul_self k hrep h₁ h₂

/-- Witness of `CI_singleton_double`, at `v = 3`, with `z` the double nearest to 1.2815515655 and
`log` given by its values at the two arguments the call passes to it, `log(1) = 0` and
`log(10) = 0x1.26bb1bbb55516p+1`. -/
theorem CI_singleton_double_witness :
    F64.representable (3 * 2 ^ 1074) ∧
    (CI_singleton F64.sqrt
      (fun x => if x = F64.fin false (2 ^ 1074) then F64.fin false 0
        else F64.fin false (5184960683398422 * 2 ^ 1023))
      (F64.fin false (5771595152841876 * 2 ^ 1022)) (F64.fin false (3 * 2 ^ 1074))).p_s
      = F64.fin false 0 ∧
    (CI_singleton F64.sqrt
      (fun x => if x = F64.fin false (2 ^ 1074) then F64.fin false 0
        else F64.fin false (5184960683398422 * 2 ^ 1023))
      (F64.fin false (5771595152841876 * 2 ^ 1022)) (F64.fin false (3 * 2 ^ 1074))).p_m
      = F64.fin false (3 * 2 ^ 1074) := by
  have hrep : F64.representable (3 * 2 ^ 1074) := by
    refine ⟨?_, by norm_num⟩
    rw [quantumExp_of_bounds (s := 1075) (by norm_num) (by norm_num)]
    norm_num
  have h := CI_singleton_double
    (fun x => if x = F64.fin false (2 ^ 1074) then F64.fin false 0
      else F64.fin false (5184960683398422 * 2 ^ 1023))
    (F64.fin false (5771595152841876 * 2 ^ 1022)) (3 * 2 ^ 1074) (by positivity) hrep
    (if_pos rfl)
    (by
      rw [F64.natCast_ten]
      beta_reduce
      rw [if_neg]
      · rw [F64.lt_zero_fin]
        exact decide_eq_true (by positivity)
      · intro h
        injection h with _ h'
        norm_num at h')
    (by
      rw [F64.lt_zero_fin]
      exact decide_eq_true (by positivity))
  exact ⟨hrep, h.2.1, h.2.2.2 (by norm_num) (by norm_num)⟩

end DoubleValues


/-! ## The table: reads, assignments, labels, the diagnostic -/

section NamedTable

variable {α : Type}

theorem Table.index_snd (dflt : Distribution α) (w : World) (t : Table α) (b : String) :
    (Table.index dflt w t b).2
      = ({ table := StdMap.update (fun d => { d with name := b })
            (StdMap.insertDefault dflt t.table b) b },
         relabelled dflt t.table b) := by
  have h := Table.index_find_aux dflt t.table b
  have h' := StdMap.insertDefault_of_find dflt _ b _ h
  simp only [Table.index, h', h]

/-- C5: for a table (a well-formed map) and a name with no entry in it, `Table::operator[]`
returns the default-constructed `Distribution` labelled with the name; afterwards the table holds
exactly that value under the name, in one entry, its entries are the old ones plus that one, every
other name reads as before, and a second read of the name returns the same value and leaves the
table as it is. -/
theorem Table.index_missing (dflt : Distribution α) (w : World) (t : Table α) (name : String)
    (hwf : StdMap.WF t.table) (hno : StdMap.count t.table name = 0) :
    (Table.index dflt w t name).2.2 = { dflt with name := name } ∧
    StdMap.find (Table.index dflt w t name).2.1.table name = some { dflt with name := name } ∧
    StdMap.count (Table.index dflt w t name).2.1.table name = 1 ∧
    (Table.index dflt w t name).2.1.table.Perm ((name, { dflt with name := name }) :: t.table) ∧
    (∀ c : String, c ≠ name →
      StdMap.find (Table.index dflt w t name).2.1.table c = StdMap.find t.table c) ∧
    StdMap.WF (Table.index dflt w t name).2.1.table ∧
    (∀ w' : World, (Table.index dflt w' (Table.index dflt w t name).2.1 name).2
      = ((Table.index dflt w t name).2.1, { dflt with name := name })) := by
  have hnone : StdMap.find t.table name = none := (StdMap.find_eq_none_iff _ _ hwf).mpr hno
  have hrel : relabelled dflt t.table name = { dflt with name := name } := by
    simp [relabelled, hnone]
  have hval : (Table.index dflt w t name).2.2 = { dflt with name := name } := by
    rw [Table.index_value, hrel]
  refine ⟨hval, ?_, Table.index_count_self dflt w t name hwf, ?_, ?_,
    Table.index_WF dflt w t name hwf, ?_⟩
  · rw [Table.index_find_self, hrel]
  · rw [Table.index_table, StdMap.update_insertDefault _ _ _ _ hnone]
    exact StdMap.insertDefault_perm _ _ _ hnone
  · intro c hc
    exact Table.index_find_ne dflt w t hc
  · intro w'
    rw [Table.index_again, hval]

/-- Witness of `Table.index_missing`: reading `"y"` from a table that only holds `"x"`. -/
theorem Table.index_missing_witness :
    StdMap.WF [("x", ({ name := "x", p_m := 5, p_s := 2 } : Distribution ℕ))] ∧
    StdMap.count [("x", ({ name := "x", p_m := 5, p_s := 2 } : Distribution ℕ))] "y" = 0 ∧
    (Table.index { name := "", p_m := 1, p_s := 0 } ⟨true, [], []⟩
      { table := [("x", ({ name := "x", p_m := 5, p_s := 2 } : Distribution ℕ))] } "y").2.2
      = { name := "y", p_m := 1, p_s := 0 } :=
  ⟨List.pairwise_singleton _ _, by decide,
    (Table.index_missing { name := "", p_m := 1, p_s := 0 } ⟨true, [], []⟩
      { table := [("x", { name := "x", p_m := 5, p_s := 2 })] } "y"
      (List.pairwise_singleton _ _) (by decide)).1⟩

/-- C6: for every table (a well-formed map), name and distribution `v`, after `table[name] = v`
the entry under `name` has the location and spread of `v`, a read of `table[name]` returns a
distribution with the location and spread of `v`, the table has exactly one entry for `name`, and
every other name reads as it did before the assignment, also after that read. -/
theorem Table.assign_then_read (dflt : Distribution α) (w : World) (t : Table α) (name : String)
    (v : Distribution α) (hwf : StdMap.WF t.table) :
    (∃ d, StdMap.find (Table.assign dflt w t name v).2.table name = some d ∧
      d.p_m = v.p_m ∧ d.p_s = v.p_s) ∧
    (Table.index dflt (Table.assign dflt w t name v).1
      (Table.assign dflt w t name v).2 name).2.2.p_m = v.p_m ∧
    (Table.index dflt (Table.assign dflt w t name v).1
      (Table.assign dflt w t name v).2 name).2.2.p_s = v.p_s ∧
    StdMap.count (Table.assign dflt w t name v).2.table name = 1 ∧
    StdMap.count (Table.index dflt (Table.assign dflt w t name v).1
      (Table.assign dflt w t name v).2 name).2.1.table name = 1 ∧
    (∀ c : String, c ≠ name →
      StdMap.find (Table.assign dflt w t name v).2.table c = StdMap.find t.table c ∧
      StdMap.find (Table.index dflt (Table.assign dflt w t name v).1
        (Table.assign dflt w t name v).2 name).2.1.table c = StdMap.find t.table c) := by
  have hf := Table.assign_find_self dflt w t name v
  have hwf' := Table.assign_WF dflt w t name v hwf
  refine ⟨⟨v, hf, rfl, rfl⟩, ?_, ?_, Table.assign_count_self dflt w t name v hwf,
    Table.index_count_self dflt _ _ name hwf', ?_⟩
  · rw [Table.index_value]
    simp [relabelled, hf]
  · rw [Table.index_value]
    simp [relabelled, hf]
  · intro c hc
    refine ⟨Table.assign_find_ne dflt w t v hc, ?_⟩
    rw [Table.index_find_ne _ _ _ hc]
    exact Table.assign_find_ne dflt w t v hc

/-- Witness of `Table.assign_then_read`, the scenario of the specification: after
`table["x"] = CI(1, 1)` on the empty table, `table["x"]` has location 1 and spread 0. -/
theorem Table.assign_then_read_witness :
    StdMap.WF ([] : StdMap ℝ) ∧
    (Table.index ({ name := "", p_m := 1, p_s := 0 } : Distribution ℝ)
      (Table.assign ({ name := "", p_m := 1, p_s := 0 } : Distribution ℝ) ⟨false, [], []⟩ { table := [] } "x"
        (CI Real.sqrt Real.log ((GAUSSIAN_90TH_PERCENTILE : ℚ) : ℝ) 1 1)).1
      (Table.assign ({ name := "", p_m := 1, p_s := 0 } : Distribution ℝ) ⟨false, [], []⟩ { table := [] } "x"
        (CI Real.sqrt Real.log ((GAUSSIAN_90TH_PERCENTILE : ℚ) : ℝ) 1 1)).2 "x").2.2.p_m = 1 ∧
    (Table.index ({ name := "", p_m := 1, p_s := 0 } : Distribution ℝ)
      (Table.assign ({ name := "", p_m := 1, p_s := 0 } : Distribution ℝ) ⟨false, [], []⟩ { table := [] } "x"
        (CI Real.sqrt Real.log ((GAUSSIAN_90TH_PERCENTILE : ℚ) : ℝ) 1 1)).1
      (Table.assign ({ name := "", p_m := 1, p_s := 0 } : Distribution ℝ) ⟨false, [], []⟩ { table := [] } "x"
        (CI Real.sqrt Real.log ((GAUSSIAN_90TH_PERCENTILE : ℚ) : ℝ) 1 1)).2 "x").2.2.p_s = 0 := by
  have h := Table.assign_then_read ({ name := "", p_m := 1, p_s := 0 } : Distribution ℝ)
    ⟨false, [], []⟩ { table := [] } "x"
    (CI Real.sqrt Real.log ((GAUSSIAN_90TH_PERCENTILE : ℚ) : ℝ) 1 1) List.Pairwise.nil
  have hc := CI_degenerate_real ((GAUSSIAN_90TH_PERCENTILE : ℚ) : ℝ) 1 (by norm_num)
  exact ⟨List.Pairwise.nil, h.2.1.trans hc.1, h.2.2.1.trans hc.2⟩

/-- C7 (as stated, refuted): after `table["x"] = v` with `v` labelled `"y"`, the entry stored
under `"x"` carries the label `"y"`, not `"x"`. -/
theorem Table.assign_keeps_label_of_value :
    ∃ d : Distribution ℕ,
      StdMap.find (Table.assign { name := "", p_m := 1, p_s := 0 } ⟨false, [], []⟩
        { table := [] } "x" { name := "y", p_m := 7, p_s := 3 }).2.table "x" = some d ∧
      d.name ≠ "x" :=
  ⟨{ name := "y", p_m := 7, p_s := 3 }, Table.assign_find_self _ _ _ _ _, by decide⟩

/-- C7 (amended): for every table, name and distribution `v`, immediately after `table[name] = v`
the entry stored under `name` is `v` with the label of `v`; the next `table[name]` sets the label
of that entry to `name` and returns it so labelled. -/
theorem Table.assign_label (dflt : Distribution α) (w : World) (t : Table α) (name : String)
    (v : Distribution α) :
    StdMap.find (Table.assign dflt w t name v).2.table name = some v ∧
    (Table.index dflt (Table.assign dflt w t name v).1
      (Table.assign dflt w t name v).2 name).2.2 = { v with name := name } ∧
    StdMap.find (Table.index dflt (Table.assign dflt w t name v).1
      (Table.assign dflt w t name v).2 name).2.1.table name = some { v with name := name } := by
  have hf := Table.assign_find_self dflt w t name v
  have hrel : relabelled dflt (Table.assign dflt w t name v).2.table name
      = { v with name := name } := by
    simp [relabelled, hf]
  refine ⟨hf, ?_, ?_⟩
  · rw [Table.index_value, hrel]
  · rw [Table.index_find_self, hrel]

/-- C9: for every table and name, `Table::operator[]` returns the same distribution and leaves the
same table whether `WARN_ABOUT_MISSING_KEYS` is true or false, and does not change the flag; with
the flag false nothing is written to `cerr`, with the flag true the warning for the name is
written exactly when `table.find(name)` finds no entry. -/
theorem Table.index_flag_observational (dflt : Distribution α) (w : World) (t : Table α)
    (b : String) :
    (Table.index dflt { w with WARN_ABOUT_MISSING_KEYS := true } t b).2
      = (Table.index dflt { w with WARN_ABOUT_MISSING_KEYS := false } t b).2 ∧
    (Table.index dflt { w with WARN_ABOUT_MISSING_KEYS := false } t b).1.cerr = w.cerr ∧
    (Table.index dflt { w with WARN_ABOUT_MISSING_KEYS := true } t b).1.cerr
      = (if (StdMap.find t.table b).isNone then w.cerr ++ [warning b] else w.cerr) ∧
    (Table.index dflt { w with WARN_ABOUT_MISSING_KEYS := true } t b).1.WARN_ABOUT_MISSING_KEYS
      = true ∧
    (Table.index dflt { w with WARN_ABOUT_MISSING_KEYS := false } t b).1.WARN_ABOUT_MISSING_KEYS
      = false := by
  refine ⟨?_, ?_, ?_, ?_, ?_⟩
  · rw [Table.index_snd, Table.index_snd]
  · rw [Table.index_cerr]
    rfl
  · rw [Table.index_cerr]
    rfl
  · rw [Table.index_flag]
  · rw [Table.index_flag]

end NamedTable

/-! ## read_input and the flag -/

section ReadInput

variable {α : Type}

theorem World.Continues.refl (w : World) : World.Continues w w :=
  ⟨rfl, [], by simp, by simp⟩

theorem World.Continues.trans {w₁ w₂ w₃ : World} (h₁ : World.Continues w₁ w₂)
    (h₂ : World.Continues w₂ w₃) : World.Continues w₁ w₃ := by
  obtain ⟨hf₁, a₁, ha₁, hall₁⟩ := h₁
  obtain ⟨hf₂, a₂, ha₂, hall₂⟩ := h₂
  refine ⟨hf₂.trans hf₁, a₁ ++ a₂, ?_, ?_⟩
  · rw [ha₂, ha₁, List.append_assoc]
  · intro a ha
    rcases List.mem_append.mp ha with h | h
    · exact hall₁ a h
    · rw [← hf₁]
      exact hall₂ a h

theorem Table.index_continues (dflt : Distribution α) (w : World) (t : Table α) (b : String) :
    World.Continues w (Table.index dflt w t b).1 := by
  refine ⟨Table.index_flag dflt w t b, [(b, w.WARN_ABOUT_MISSING_KEYS)],
    Table.index_accesses dflt w t b, ?_⟩
  intro a ha
  simp only [List.mem_singleton] at ha
  rw [ha]

theorem Table.assign_continues (dflt : Distribution α) (w : World) (t : Table α) (b : String)
    (v : Distribution α) : World.Continues w (Table.assign dflt w t b v).1 :=
  Table.index_continues dflt w t b

theorem Expr.eval_continues (H : Header α) (e : Expr) :
    ∀ (w : World) (t : Table α), World.Continues w (Expr.eval H w t e).1 := by
  induction e with
  | table name =>
    intro w t
    exact Table.index_continues _ w t name
  | mul a b iha ihb =>
    intro w t
    exact (iha w t).trans (ihb _ _)
  | add a b iha ihb =>
    intro w t
    exact (iha w t).trans (ihb _ _)
  | sub a b iha ihb =>
    intro w t
    exact (iha w t).trans (ihb _ _)

theorem Stmt.exec_continues (H : Header α) (w : World) (t : Table α) (s : Stmt) :
    World.Continues w (Stmt.exec H w t s).1 :=
  (Expr.eval_continues H s.rhs w t).trans (Table.assign_continues _ _ _ _ _)

theorem execBlock_continues (H : Header α) (p : List Stmt) :
    ∀ (w : World) (t : Table α), World.Continues w (execBlock H p w t).1 := by
  induction p with
  | nil =>
    intro w t
    exact World.Continues.refl w
  | cons s rest ih =>
    intro w t
    exact (Stmt.exec_continues H w t s).trans (ih _ _)

theorem execBlock_append (H : Header α) (p q : List Stmt) :
    ∀ (w : World) (t : Table α),
      execBlock H (p ++ q) w t = execBlock H q (execBlock H p w t).1 (execBlock H p w t).2 := by
  induction p with
  | nil =>
    intro w t
    rfl
  | cons s rest ih =>
    intro w t
    exact ih _ _

theorem read_input_loop_continues [Mul α] [Div α] [NatCast α] (H : Header α)
    (records : List Record) :
    ∀ (w : World) (t : Table α),
      (∀ s, read_input_loop H records w t = Except.ok s → World.Continues w s.1) ∧
      (∀ w', read_input_loop H records w t = Except.error w' → World.Continues w w') := by
  induction records with
  | nil =>
    intro w t
    constructor
    · intro s hs
      simp only [read_input_loop, Except.ok.injEq] at hs
      rw [← hs]
      exact World.Continues.refl w
    · intro w' hw'
      simp [read_input_loop] at hw'
  | cons r rest ih =>
    intro w t
    by_cases hk : r.key.length ≠ 0
    · cases hlo : H.stof r.low_CI with
      | none =>
        constructor
        · intro s hs
          simp [read_input_loop, hk, hlo] at hs
        · intro w' hw'
          simp only [read_input_loop, hk, hlo, if_true, ne_eq, not_false_eq_true,
            Except.error.injEq] at hw'
          rw [← hw']
          exact World.Continues.refl w
      | some lo =>
        cases hhi : H.stof r.high_CI with
        | none =>
          constructor
          · intro s hs
            simp [read_input_loop, hk, hlo, hhi] at hs
          · intro w' hw'
            simp only [read_input_loop, hk, hlo, hhi, if_true, ne_eq, not_false_eq_true,
              Except.error.injEq] at hw'
            rw [← hw']
            exact World.Continues.refl w
        | some hi =>
          have hstep := Table.assign_continues H.default_Distribution w t r.key
            (CI H.sqrt H.log H.GAUSSIAN_90TH_PERCENTILE lo hi)
          have hrest := ih (Table.assign H.default_Distribution w t r.key
            (CI H.sqrt H.log H.GAUSSIAN_90TH_PERCENTILE lo hi)).1
            (Table.assign H.default_Distribution w t r.key
            (CI H.sqrt H.log H.GAUSSIAN_90TH_PERCENTILE lo hi)).2
          constructor
          · intro s hs
            simp only [read_input_loop, hk, hlo, hhi, if_true, ne_eq, not_false_eq_true] at hs
            exact hstep.trans (hrest.1 s hs)
          · intro w' hw'
            simp only [read_input_loop, hk, hlo, hhi, if_true, ne_eq, not_false_eq_true] at hw'
            exact hstep.trans (hrest.2 w' hw')
    · have := ih w t
      constructor
      · intro s hs
        simp only [read_input_loop, hk, if_false] at hs
        exact this.1 s hs
      · intro w' hw'
        simp only [read_input_loop, hk, if_false] at hw'
        exact this.2 w' hw'

theorem read_input_loop_ok_iff [Mul α] [Div α] [NatCast α] (H : Header α)
    (records : List Record) :
    ∀ (w : World) (t : Table α),
      (∃ s, read_input_loop H records w t = Except.ok s) ↔ convertible H records = true := by
  induction records with
  | nil =>
    intro w t
    simp [read_input_loop, convertible]
  | cons r rest ih =>
    intro w t
    have hc : convertible H (r :: rest)
        = ((decide (r.key.length = 0)
            || ((H.stof r.low_CI).isSome && (H.stof r.high_CI).isSome))
          && convertible H rest) := by
      simp [convertible]
    rw [hc]
    by_cases hk : r.key.length ≠ 0
    · have hk' : ¬ r.key.length = 0 := hk
      cases hlo : H.stof r.low_CI with
      | none => simp [read_input_loop, hk', hlo]
      | some lo =>
        cases hhi : H.stof r.high_CI with
        | none => simp [read_input_loop, hk', hlo, hhi]
        | some hi =>
          simp only [read_input_loop, hk, hlo, hhi, if_true, ne_eq, not_false_eq_true]
          rw [ih]
          simp [hk']
    · have hk' : r.key.length = 0 := not_not.mp hk
      simp only [read_input_loop, hk, if_false]
      rw [ih]
      simp [hk']

theorem read_input_some [Mul α] [Div α] [NatCast α] (H : Header α) (w : World)
    (filename : String) (records : List Record) :
    read_input H w filename (some records)
      = match read_input_loop H records { w with WARN_ABOUT_MISSING_KEYS := false }
          { table := [] } with
        | Except.error w₁ => Outcome.threw w₁
        | Except.ok s₁ =>
          Outcome.returned
            { (set_EV_far_future H (set_globals H s₁.1 s₁.2).1 (set_globals H s₁.1 s₁.2).2).1
                with WARN_ABOUT_MISSING_KEYS := w.WARN_ABOUT_MISSING_KEYS }
            (set_EV_far_future H (set_globals H s₁.1 s₁.2).1 (set_globals H s₁.1 s₁.2).2).2 :=
  rfl

theorem formulas_continue (H : Header α) (w : World) (t : Table α) :
    World.Continues w
      (set_EV_far_future H (set_globals H w t).1 (set_globals H w t).2).1 :=
  (execBlock_continues H set_globals_body w t).trans
    (execBlock_continues H set_EV_far_future_body _ _)

/-- C8: for every initial value of `WARN_ABOUT_MISSING_KEYS`, every call of `Table::operator[]`
made during `read_input` (while the records are loaded, and in `set_globals` and
`set_EV_far_future` after them) sees the flag false; when `read_input` returns, the flag has the
value it had on entry; and `read_input` does return whenever the file could be opened and `stof`
accepts the numbers of its records. -/
theorem read_input_flag [Mul α] [Div α] [NatCast α] (H : Header α) (w : World)
    (filename : String) (file : Option (List Record)) :
    (∃ added : List (String × Bool),
      (read_input H w filename file).world.accesses = w.accesses ++ added ∧
      ∀ a ∈ added, a.2 = false) ∧
    (∀ (w' : World) (t : Table α), read_input H w filename file = Outcome.returned w' t →
      w'.WARN_ABOUT_MISSING_KEYS = w.WARN_ABOUT_MISSING_KEYS) ∧
    ((∃ (w' : World) (t : Table α), read_input H w filename file = Outcome.returned w' t) ↔
      ∃ records, file = some records ∧ convertible H records = true) := by
  cases file with
  | none =>
    refine ⟨⟨[], by simp [read_input, Outcome.world], by simp⟩, ?_, ?_⟩
    · intro w' t h
      simp [read_input] at h
    · simp [read_input]
  | some records =>
    have hcont := read_input_loop_continues H records
      { w with WARN_ABOUT_MISSING_KEYS := false } { table := [] }
    have hok := read_input_loop_ok_iff H records
      { w with WARN_ABOUT_MISSING_KEYS := false } { table := [] }
    rw [read_input_some]
    cases hloop : read_input_loop H records { w with WARN_ABOUT_MISSING_KEYS := false }
        { table := [] } with
    | error w₁ =>
      have hconv : ¬ convertible H records = true := by
        intro hc
        obtain ⟨s, hs⟩ := hok.mpr hc
        rw [hloop] at hs
        cases hs
      obtain ⟨_, added, hadd, hall⟩ := hcont.2 w₁ hloop
      refine ⟨⟨added, hadd, hall⟩, ?_, ?_⟩
      · intro w' t h
        cases h
      · constructor
        · rintro ⟨w', t, h⟩
          cases h
        · rintro ⟨records', hr, hc⟩
          cases hr
          exact absurd hc hconv
    | ok s₁ =>
      have hconv : convertible H records = true := hok.mp ⟨s₁, hloop⟩
      obtain ⟨_, added, hadd, hall⟩ := (hcont.1 s₁ hloop).trans (formulas_continue H s₁.1 s₁.2)
      dsimp only [Outcome.world]
      generalize set_EV_far_future H (set_globals H s₁.1 s₁.2).1 (set_globals H s₁.1 s₁.2).2
        = s₃ at hadd ⊢
      refine ⟨⟨added, hadd, hall⟩, ?_, ?_⟩
      · intro w' t h
        cases h
        rfl
      · constructor
        · intro _
          exact ⟨records, rfl, hconv⟩
        · intro _
          exact ⟨_, _, rfl⟩

end ReadInput

/-! ## The order of the formula statements -/

section FormulaOrder

theorem orderedFrom_sound (all : List Stmt) :
    ∀ (rest before : List Stmt), orderedFrom all before rest = true →
      ∀ (i : ℕ) (hi : i < rest.length) (r : String),
        r ∈ (rest.get ⟨i, hi⟩).rhs.reads →
        r ∈ assigned (before ++ rest.take i) ∨ r ∉ assigned all := by
  intro rest
  induction rest with
  | nil =>
    intro before _ i hi
    simp at hi
  | cons s rest ih =>
    intro before h i hi r hr
    simp only [orderedFrom, Bool.and_eq_true] at h
    cases i with
    | zero =>
      have hs := h.1
      simp only [Stmt.readsInOrder, List.all_eq_true, Bool.or_eq_true, decide_eq_true_eq,
        Bool.not_eq_true', decide_eq_false_iff_not] at hs
      simpa using hs r hr
    | succ j =>
      have hj : j < rest.length := by simpa using hi
      have := ih (before ++ [s]) h.2 j hj r hr
      simpa [List.append_assoc] using this

theorem formula_sequence_checked : orderedFrom formula_sequence [] formula_sequence = true := by
  decide

theorem read_input_runs_formula_sequence {α : Type} (H : Header α) (w : World) (t : Table α) :
    set_EV_far_future H (set_globals H w t).1 (set_globals H w t).2
      = execBlock H formula_sequence w t :=
  (execBlock_append H set_globals_body set_EV_far_future_body w t).symm

/-- C10: in the sequence of the statements of `set_globals` followed by those of
`set_EV_far_future` (which is what `read_input` executes), a name read on the right-hand side of
statement `i` that some statement of the sequence assigns is assigned by a statement before `i`;
so every name read is assigned by an earlier statement or by no statement at all. -/
theorem formula_sequence_reads_after_assignment (i : ℕ) (hi : i < formula_sequence.length)
    (r : String) (hr : r ∈ (formula_sequence.get ⟨i, hi⟩).rhs.reads) :
    (r ∈ assigned formula_sequence → r ∈ assigned (formula_sequence.take i)) ∧
    (r ∈ assigned (formula_sequence.take i) ∨ r ∉ assigned formula_sequence) ∧
    (∀ (α : Type) (H : Header α) (w : World) (t : Table α),
      set_EV_far_future H (set_globals H w t).1 (set_globals H w t).2
        = execBlock H formula_sequence w t) := by
  have h := orderedFrom_sound formula_sequence formula_sequence [] formula_sequence_checked
    i hi r hr
  rw [List.nil_append] at h
  refine ⟨?_, h, fun α H w t => read_input_runs_formula_sequence H w t⟩
  intro hall
  rcases h with h | h
  · exact h
  · exact absurd hall h

/-- Witness of `formula_sequence_reads_after_assignment`: statement 15,
`table["human weighted utility"] = table["P(humans exist)"] * ...`, reads `"P(humans exist)"`,
which statement 12 assigns. -/
theorem formula_sequence_reads_after_assignment_witness :
    "P(humans exist)" ∈ assigned formula_sequence ∧
    "P(humans exist)" ∈ assigned (formula_sequence.take 15) :=
  ⟨by decide,
    (formula_sequence_reads_after_assignment 15 (by decide) "P(humans exist)" (by decide)).1
      (by decide)⟩

end FormulaOrder

end QuantitativeModel
